import Mathlib

/-! obj_pmemblk: a block pool built on a transactional object store.

A shallow embedding of `obj_pmemblk.c` (the pmemobj-based pmemblk example).

* The root object `struct base` becomes the record `Base`.  Its two `TOID(uint8_t)`
  fields are represented by the byte contents of the regions they own (a null handle
  is the empty region); bytes are natural numbers, every store through a `uint8_t`
  lvalue is reduced modulo 256.
* `size_t` values are natural numbers reduced modulo `2 ^ 64` where the C arithmetic
  wraps, `long long` values are integers.
* Every function returns an `Option`: `none` stands for an execution that leaves the
  defined behaviour of C (an access outside a region or outside the lock table, a
  division by zero).
* A transaction is a list of steps run over the pool contents together with an undo
  log.  The engine decides its fate: it commits, or it aborts once a given number of
  steps has run, in which case the undo log is replayed.
* The calls of the engine made by `pmemblk_create`, `pmemblk_open` and `pmemblk_check`
  (`pmemobj_create`, `pmemobj_open`, `pmemobj_check`, `stat`) have their outcomes as
  parameters and leave an event in the trace.
* `double` arithmetic is IEEE-754 binary64 with round-to-nearest-even, carried out on
  exact integers (a value is `m / 2 ^ 53` for a natural number `m`).
-/

namespace ObjPmemblk

/-! ## Constants of the translation unit -/

/-- Macro `#define POOL_SIZE ((size_t)(1024 * 1024 * 100))` -/
def POOL_SIZE : Nat := 1024 * 1024 * 100

/-- Macro `#define MAX_POOL_SIZE ((size_t)1024 * 1024 * 1024 * 16)` -/
def MAX_POOL_SIZE : Nat := 1024 * 1024 * 1024 * 16

/-- Macro `#define MAX_THREADS 256` -/
def MAX_THREADS : Nat := 256

/-- Macro `#define BSIZE_MAX ((size_t)(1024 * 1024 * 10))` -/
def BSIZE_MAX : Nat := 1024 * 1024 * 10

/-- Macro `#define ZERO_MASK (1 << 0)` -/
def ZERO_MASK : Nat := 1 <<< 0

/-- Macro `#define ERROR_MASK (1 << 1)` -/
def ERROR_MASK : Nat := 1 <<< 1

/-! ## Machine integers -/

/-- Conversion `(long long)x` of a `size_t` value: two's complement on 64 bits. -/
def toLongLong (n : Nat) : Int :=
  if n % 2 ^ 64 < 2 ^ 63 then ((n % 2 ^ 64 : Nat) : Int)
  else ((n % 2 ^ 64 : Nat) : Int) - 2 ^ 64

/-- Conversion of a `long long` to `size_t` (the usual arithmetic conversion applied
to `blockno` in `blockno * bsize`). -/
def toSizeT (i : Int) : Nat := (i % 2 ^ 64).toNat

/-- Bit pattern of `~x` for an `int` operand `x` (32 bits, two's complement). -/
def bitNot32 (x : Nat) : Nat := 2 ^ 32 - 1 - x

/-- Store of an `int` bit pattern into a `uint8_t` lvalue. -/
def toUInt8 (x : Nat) : Nat := x % 256

/-! ## Binary64 arithmetic on exact integers -/

/-- Round `n` to the nearest multiple of `2 ^ s`, ties to the even multiple. -/
def roundNearestEven (n s : Nat) : Nat :=
  let q := n / 2 ^ s
  let r := n % 2 ^ s
  if 2 ^ s < 2 * r ∨ (2 * r = 2 ^ s ∧ q % 2 = 1) then (q + 1) * 2 ^ s else q * 2 ^ s

/-- How many low-order bits of `n` do not fit a 53-bit significand. -/
def excessBits : Nat → Nat → Nat
  | 0, _ => 0
  | fuel + 1, n => if n < 2 ^ 53 then 0 else excessBits fuel (n / 2) + 1

/-- Rounding of an exact integer to a 53-bit significand (round-to-nearest-even).
The operands met here are below `2 ^ 128`, for which `128` halvings are enough. -/
def fpRound (n : Nat) : Nat := roundNearestEven n (excessBits 128 n)

/-- Nearest integer to `a / b`, ties to even. -/
def divNearestEven (a b : Nat) : Nat :=
  let q := a / b
  let r := a % b
  if b < 2 * r ∨ (2 * r = b ∧ q % 2 = 1) then q + 1 else q

/-- Macro `#define USABLE_SIZE (7.0 / 10)`: the binary64 quotient, a value in `[1/2, 1)`,
given by its 53-bit significand: `USABLE_SIZE = USABLE_SIZE_SIG / 2 ^ 53`. -/
def USABLE_SIZE_SIG : Nat := divNearestEven (7 * 2 ^ 53) 10

/-- The expression `(size_t)(fsize * USABLE_SIZE)`: `fsize` is converted to binary64, multiplied by
`USABLE_SIZE` with one rounding, and the product is truncated towards zero. -/
def usable_bytes (fsize : Nat) : Nat :=
  fpRound (fpRound fsize * USABLE_SIZE_SIG) / 2 ^ 53

/-! ## Pool contents -/

/-- The root object `struct base` (the lock table carries no data and is represented
by the lock indices that appear in the event trace). -/
structure Base where
  /-- Field `TOID(uint8_t) data`: contiguous memory region. -/
  data : List Nat
  /-- Field `TOID(uint8_t) flags`: block flags. -/
  flags : List Nat
  /-- Block size. -/
  bsize : Nat
  /-- Number of available blocks. -/
  nblocks : Nat
deriving DecidableEq, Repr

/-- A root object as `pmemobj_root` hands it out for a new pool: zero-filled. -/
def Base.empty : Base := ⟨[], [], 0, 0⟩

/-- The layout that every block operation relies on: one flag byte per block, the
blocks inside the data region, and both regions objects of the address space. -/
def Base.Valid (bp : Base) : Prop :=
  bp.flags.length = bp.nblocks ∧ bp.nblocks * bp.bsize ≤ bp.data.length ∧
    bp.data.length < 2 ^ 63 ∧ bp.flags.length < 2 ^ 63

instance (bp : Base) : Decidable bp.Valid := by
  unfold Base.Valid; infer_instance

/-- Bytes `[off, off + n)` of a region. -/
def slice (mem : List Nat) (off n : Nat) : List Nat := (mem.drop off).take n

/-- Region contents after the bytes `src` have been stored at offset `off`. -/
def splice (mem : List Nat) (off : Nat) (src : List Nat) : List Nat :=
  mem.take off ++ src ++ mem.drop (off + src.length)

/-- Checked read of `n` bytes at `off`. -/
def region_read (mem : List Nat) (off n : Nat) : Option (List Nat) :=
  if off + n ≤ mem.length then some (slice mem off n) else none

/-- Checked store of `src` at `off`. -/
def region_write (mem : List Nat) (off : Nat) (src : List Nat) : Option (List Nat) :=
  if off + src.length ≤ mem.length then some (splice mem off src) else none

/-- Call `memcpy(dst, src, n)` where `dst` points `off` bytes into `mem`. -/
def memcpy (mem : List Nat) (off : Nat) (src : List Nat) (n : Nat) : Option (List Nat) :=
  if n ≤ src.length then region_write mem off (src.take n) else none

/-- Call `memset(dst, 0, n)` where `dst` points at the start of `mem`. -/
def memset_zero (mem : List Nat) (n : Nat) : Option (List Nat) :=
  region_write mem 0 (List.replicate n 0)

/-! ## Transactions -/

/-- The two regions a block operation stores into. -/
inductive Region where
  | data
  | flags
deriving DecidableEq, Repr

/-- One record of the undo log. -/
inductive Snapshot where
  /-- Made by `TX_ADD(bp)`: the root object. -/
  | root (old : Base)
  /-- Made by `pmemobj_tx_add_range_direct`: prior bytes of a range of a region. -/
  | range (r : Region) (off : Nat) (old : List Nat)
deriving DecidableEq, Repr

/-- A running transaction: the pool as modified in place, and the undo log, newest
record first. -/
structure Tx where
  bp : Base
  undo : List Snapshot
deriving DecidableEq, Repr

/-- How the engine ends a transaction. -/
inductive TxFate where
  /-- Every step succeeds and the transaction commits. -/
  | commit
  /-- The transaction aborts once `k` steps of its body have run (at its commit when
  the body is shorter). -/
  | abortAfter (k : Nat)
deriving DecidableEq, Repr

/-- Events visible to the engine. -/
inductive Event where
  | mutex_lock (i : Nat)
  | mutex_unlock (i : Nat)
  | tx_begin (lock : Option Nat)
  | tx_end (committed : Bool)
  /-- Call of `pmemobj_create`. -/
  | pool_create
  /-- Call of `pmemobj_open`. -/
  | pool_open
  /-- Call of `pmemobj_close`. -/
  | pool_close
  /-- Call of `pmemobj_check`. -/
  | pool_check
  /-- Call of `stat` on the pool file. -/
  | stat
deriving DecidableEq, Repr

def Base.region (bp : Base) : Region → List Nat
  | .data => bp.data
  | .flags => bp.flags

def Base.setRegion (bp : Base) : Region → List Nat → Base
  | .data, m => { bp with data := m }
  | .flags, m => { bp with flags := m }

/-- Step `TX_ADD(bp)`. -/
def tx_add_root (t : Tx) : Option Tx :=
  some { t with undo := Snapshot.root t.bp :: t.undo }

/-- Step `pmemobj_tx_add_range_direct(ptr, len)` with `ptr` pointing `off` bytes into `r`. -/
def tx_add_range_direct (r : Region) (off len : Nat) (t : Tx) : Option Tx :=
  (region_read (t.bp.region r) off len).map fun old =>
    { t with undo := Snapshot.range r off old :: t.undo }

/-- Undo one record. -/
def Snapshot.restore : Snapshot → Base → Base
  | .root old, _ => old
  | .range r off old, bp => bp.setRegion r (splice (bp.region r) off old)

/-- Replay of the undo log, newest record first. -/
def rollback : List Snapshot → Base → Base
  | [], bp => bp
  | s :: rest, bp => rollback rest (s.restore bp)

/-- Run the steps of a transaction body in order. -/
def runSteps : List (Tx → Option Tx) → Tx → Option Tx
  | [], t => some t
  | s :: rest, t => (s t).bind (runSteps rest)

/-- Block `TX_BEGIN ... TX_END`: the outcome (committed or not) and the pool it leaves. -/
def tx_run (body : List (Tx → Option Tx)) (fate : TxFate) (bp : Base) :
    Option (Bool × Base) :=
  match fate with
  | .commit => (runSteps body ⟨bp, []⟩).map fun t => (true, t.bp)
  | .abortAfter k =>
    (runSteps (body.take k) ⟨bp, []⟩).map fun t => (false, rollback t.undo t.bp)

/-! ## The block pool -/

/-- What a call returns: its return value, the pool it leaves, and the engine events. -/
structure Result where
  ret : Int
  bp : Base
  trace : List Event
deriving DecidableEq, Repr

/-- Value of `errno` set by a call. -/
inductive Errno where
  | EIO
  | EINVAL
deriving DecidableEq, Repr

/-- What `pmemblk_read` returns: in addition the caller's buffer and `errno` when the
call sets it. -/
structure ReadResult where
  ret : Int
  bp : Base
  buf : List Nat
  err : Option Errno
  trace : List Event
deriving DecidableEq, Repr

/-- Index `blockno % MAX_THREADS` into `locks[MAX_THREADS]`; `%` truncates. -/
def lock_index (blockno : Int) : Option Nat :=
  let i := Int.tmod blockno MAX_THREADS
  if 0 ≤ i ∧ i < MAX_THREADS then some i.toNat else none

/-- Index of `D_RW(D_RW(bp)->flags) + blockno` in the flags region. -/
def flag_index (bp : Base) (blockno : Int) : Option Nat :=
  if 0 ≤ blockno ∧ blockno < bp.flags.length then some blockno.toNat else none

/-- Offset `size_t block_off = blockno * D_RO(bp)->bsize;` -/
def block_off (bp : Base) (blockno : Int) : Nat :=
  (toSizeT blockno * bp.bsize) % 2 ^ 64

/-- Store `*flags = f(*flags)` for the flag byte of `blockno`. -/
def flag_update (blockno : Int) (f : Nat → Nat) (t : Tx) : Option Tx :=
  match flag_index t.bp blockno with
  | none => none
  | some i =>
    match t.bp.flags[i]? with
    | none => none
    | some v => some { t with bp := { t.bp with flags := t.bp.flags.set i (toUInt8 (f v)) } }

/-- Step `pmemobj_tx_add_range_direct(flags, sizeof(*flags))` for the flag byte of `blockno`. -/
def flag_add_range (blockno : Int) (t : Tx) : Option Tx :=
  match flag_index t.bp blockno with
  | none => none
  | some i => tx_add_range_direct .flags i 1 t

/-- Body of the transaction of `pmemblk_map` (new pool). -/
def map_body (bsize fsize : Nat) : List (Tx → Option Tx) :=
  [ tx_add_root,
    fun t => some { t with bp := { t.bp with bsize := bsize } },
    fun t => if bsize = 0 then none
      else some { t with bp := { t.bp with nblocks := usable_bytes fsize / bsize } },
    fun t => some { t with bp := { t.bp with data := List.replicate (usable_bytes fsize) 0 } },
    fun t => some { t with bp := { t.bp with flags := List.replicate t.bp.nblocks 0 } } ]

/-- Function `pmemblk_map`: read or initialise the blk pool. -/
def pmemblk_map (bp : Base) (bsize fsize : Nat) (fate : TxFate) : Option Result :=
  if bp.bsize ≠ 0 then
    if bsize ≠ 0 ∧ bp.bsize ≠ bsize then some ⟨-1, bp, []⟩ else some ⟨0, bp, []⟩
  else
    (tx_run (map_body bsize fsize) fate bp).map fun (committed, bp') =>
      ⟨if committed then 0 else -1, bp', [Event.tx_begin none, Event.tx_end committed]⟩

/-- What `pmemblk_open` and `pmemblk_create` return: the `PMEMblkpool *` (the pool, or
`none` for `NULL`), `errno` when the function itself sets it, and the engine events. -/
structure PoolResult where
  handle : Option Base
  err : Option Errno
  trace : List Event
deriving DecidableEq, Repr

/-- Turn the result of `pmemblk_map` into `pmemblk_map(...) ? NULL : (PMEMblkpool *)pop`,
after the engine calls `before`. -/
def handle_of_map (before : List Event) (r : Result) : PoolResult :=
  ⟨if r.ret ≠ 0 then none else some r.bp, none, before ++ r.trace⟩

/-- Function `pmemblk_open`: open a block memory pool.  The collaborators' outcomes are
parameters: `opened` is the root object of the pool `pmemobj_open` returns (`none` for
`NULL`), `st_size` the file size `stat` reports (`none` when `stat` fails). -/
def pmemblk_open (opened : Option Base) (st_size : Option Nat) (bsize : Nat) (fate : TxFate) :
    Option PoolResult :=
  match opened with
  | none => some ⟨none, none, [Event.pool_open]⟩
  | some root =>
    match st_size with
    | none => some ⟨none, none, [Event.pool_open, Event.stat]⟩
    | some size =>
      (pmemblk_map root bsize size fate).map (handle_of_map [Event.pool_open, Event.stat])

/-- Function `pmemblk_create`: create a block memory pool.  The parameter `created` is the
root object of the pool `pmemobj_create` returns (`none` for `NULL`). -/
def pmemblk_create (created : Option Base) (bsize poolsize : Nat) (fate : TxFate) :
    Option PoolResult :=
  if poolsize > MAX_POOL_SIZE then some ⟨none, some Errno.EINVAL, []⟩
  else
    match created with
    | none => some ⟨none, none, [Event.pool_create]⟩
    | some root => (pmemblk_map root bsize poolsize fate).map (handle_of_map [Event.pool_create])

/-- Function `pmemblk_close`: close a block memory pool. -/
def pmemblk_close (_pbp : Base) : List Event := [Event.pool_close]

/-- Function `pmemblk_check`: block memory pool consistency check.  The parameter `ret` is
the value `pmemobj_check` returns. -/
def pmemblk_check (ret : Int) (opened : Option Base) (st_size : Option Nat) (bsize : Nat)
    (fate : TxFate) : Option (Int × List Event) :=
  if ret ≠ 0 then some (ret, [Event.pool_check])
  else
    (pmemblk_open opened st_size bsize fate).map fun r =>
      match r.handle with
      | none => (-1, Event.pool_check :: r.trace)
      | some pop => (0, Event.pool_check :: r.trace ++ pmemblk_close pop)

/-- How `main` gets to its command loop, or ends before it. -/
inductive MainStart where
  /-- The statement `return code;` is reached before the command loop. -/
  | returned (code : Int) (trace : List Event)
  /-- The `assert(bsize <= BSIZE_MAX)` fails and the program is aborted. -/
  | aborted
  /-- The pool `pbp` is open and the command loop starts. -/
  | running (pbp : Base) (trace : List Event)
deriving DecidableEq, Repr

/-- The test `if (pbp == NULL)` of `main` on what `pmemblk_create` or `pmemblk_open`
returned. -/
def main_pool_check (r : PoolResult) : MainStart :=
  match r.handle with
  | none => MainStart.returned 1 r.trace
  | some pbp => MainStart.running pbp r.trace

/-- Function `main` from its first line to the command loop.  The parameters are `argc`,
the string `argv[1]`, the value `bsize` that `strtoul(argv[3], NULL, 10)` yields, and the
outcomes of the engine calls as for `pmemblk_create` and `pmemblk_open`. -/
def main_start (argc : Nat) (argv1 : List Char) (bsize : Nat) (created opened : Option Base)
    (st_size : Option Nat) (fate : TxFate) : Option MainStart :=
  if argc < 4 then some (MainStart.returned 1 [])
  else if ¬ bsize ≤ BSIZE_MAX then some MainStart.aborted
  else if bsize = 0 then some (MainStart.returned 1 [])
  else if argv1.head? = some 'c' then
    (pmemblk_create created bsize POOL_SIZE fate).map main_pool_check
  else if argv1.head? = some 'o' then
    (pmemblk_open opened st_size bsize fate).map main_pool_check
  else some (MainStart.returned 1 [])

/-- Run a transaction under the stripe lock of `blockno`, returning `1` on abort. -/
def locked_tx (bp : Base) (blockno : Int) (body : List (Tx → Option Tx)) (fate : TxFate) :
    Option Result :=
  match lock_index blockno with
  | none => none
  | some l =>
    (tx_run body fate bp).map fun (committed, bp') =>
      ⟨if committed then 0 else 1, bp', [Event.tx_begin (some l), Event.tx_end committed]⟩

/-- Body of the transaction of `pmemblk_set_error`. -/
def set_error_body (blockno : Int) : List (Tx → Option Tx) :=
  [ flag_add_range blockno,
    flag_update blockno fun f => f ||| ERROR_MASK ]

/-- Function `pmemblk_set_error`: put a block in error state. -/
def pmemblk_set_error (bp : Base) (blockno : Int) (fate : TxFate) : Option Result :=
  if blockno ≥ toLongLong bp.nblocks then some ⟨1, bp, []⟩
  else locked_tx bp blockno (set_error_body blockno) fate

/-- Function `pmemblk_nblock`: number of usable blocks. -/
def pmemblk_nblock (bp : Base) : Nat := bp.nblocks

/-- Function `pmemblk_read`: read a block. -/
def pmemblk_read (bp : Base) (buf : List Nat) (blockno : Int) : Option ReadResult :=
  if blockno ≥ toLongLong bp.nblocks then some ⟨1, bp, buf, none, []⟩
  else
    match lock_index blockno with
    | none => none
    | some l =>
      match flag_index bp blockno with
      | none => none
      | some i =>
        match bp.flags[i]? with
        | none => none
        | some flags =>
          if flags &&& ERROR_MASK ≠ 0 then
            some ⟨1, bp, buf, some Errno.EIO, [Event.mutex_lock l, Event.mutex_unlock l]⟩
          else if flags &&& ZERO_MASK = 0 then
            (memset_zero buf bp.bsize).map fun buf' =>
              ⟨0, bp, buf', none, [Event.mutex_lock l, Event.mutex_unlock l]⟩
          else
            (region_read bp.data (block_off bp blockno) bp.bsize).bind fun src =>
              (memcpy buf 0 src bp.bsize).map fun buf' =>
                ⟨0, bp, buf', none, [Event.mutex_lock l, Event.mutex_unlock l]⟩

/-- Body of the transaction of `pmemblk_write`. -/
def write_body (buf : List Nat) (blockno : Int) : List (Tx → Option Tx) :=
  [ fun t => tx_add_range_direct .data (block_off t.bp blockno) t.bp.bsize t,
    fun t => (memcpy t.bp.data (block_off t.bp blockno) buf t.bp.bsize).map fun d =>
      { t with bp := { t.bp with data := d } },
    flag_add_range blockno,
    flag_update blockno fun f => f &&& bitNot32 ERROR_MASK,
    flag_update blockno fun f => f ||| ZERO_MASK ]

/-- Function `pmemblk_write`: write a block (atomically). -/
def pmemblk_write (bp : Base) (buf : List Nat) (blockno : Int) (fate : TxFate) :
    Option Result :=
  if blockno ≥ toLongLong bp.nblocks then some ⟨1, bp, []⟩
  else locked_tx bp blockno (write_body buf blockno) fate

/-- Body of the transaction of `pmemblk_set_zero`. -/
def set_zero_body (blockno : Int) : List (Tx → Option Tx) :=
  [ flag_add_range blockno,
    flag_update blockno fun f => f &&& bitNot32 ZERO_MASK ]

/-- Function `pmemblk_set_zero`: zero a block. -/
def pmemblk_set_zero (bp : Base) (blockno : Int) (fate : TxFate) : Option Result :=
  if blockno ≥ toLongLong bp.nblocks then some ⟨1, bp, []⟩
  else locked_tx bp blockno (set_zero_body blockno) fate

/-- Flag byte left by a committed `pmemblk_write`. -/
def flag_after_write (f : Nat) : Nat :=
  toUInt8 (toUInt8 (f &&& bitNot32 ERROR_MASK) ||| ZERO_MASK)

/-- Flag byte left by a committed `pmemblk_set_zero`. -/
def flag_after_set_zero (f : Nat) : Nat := toUInt8 (f &&& bitNot32 ZERO_MASK)

/-- Flag byte left by a committed `pmemblk_set_error`. -/
def flag_after_set_error (f : Nat) : Nat := toUInt8 (f ||| ERROR_MASK)

/-- The trace of a block transaction on block `b`. -/
def tx_trace (b : Nat) (committed : Bool) : List Event :=
  [Event.tx_begin (some (b % 256)), Event.tx_end committed]

/-- The trace of a read that reaches the stripe lock of block `b`. -/
def read_trace (b : Nat) : List Event :=
  [Event.mutex_lock (b % 256), Event.mutex_unlock (b % 256)]

/-- Pool left by a committed write of `buf` to block `b`. -/
def write_commit (bp : Base) (buf : List Nat) (b : Nat) : Base :=
  { bp with
    data := splice bp.data (b * bp.bsize) (buf.take bp.bsize)
    flags := bp.flags.set b (flag_after_write (bp.flags.getD b 0)) }

/-- Pool left by a committed `pmemblk_set_zero` of block `b`. -/
def set_zero_commit (bp : Base) (b : Nat) : Base :=
  { bp with flags := bp.flags.set b (flag_after_set_zero (bp.flags.getD b 0)) }

/-- Pool left by a committed `pmemblk_set_error` of block `b`. -/
def set_error_commit (bp : Base) (b : Nat) : Base :=
  { bp with flags := bp.flags.set b (flag_after_set_error (bp.flags.getD b 0)) }

/-! ## Sequences of calls -/

/-- One call of the block interface. -/
inductive Op where
  | read (buf : List Nat) (blockno : Int)
  | write (buf : List Nat) (blockno : Int) (fate : TxFate)
  | set_zero (blockno : Int) (fate : TxFate)
  | set_error (blockno : Int) (fate : TxFate)
deriving DecidableEq, Repr

/-- The pool a call leaves. -/
def Op.run (bp : Base) : Op → Option Base
  | .read buf blockno => (pmemblk_read bp buf blockno).map fun r => r.bp
  | .write buf blockno fate => (pmemblk_write bp buf blockno fate).map fun r => r.bp
  | .set_zero blockno fate => (pmemblk_set_zero bp blockno fate).map fun r => r.bp
  | .set_error blockno fate => (pmemblk_set_error bp blockno fate).map fun r => r.bp

/-- The pool a sequence of calls leaves. -/
def run_ops : Base → List Op → Option Base
  | bp, [] => some bp
  | bp, op :: rest => (op.run bp).bind fun bp' => run_ops bp' rest

/-- The call has a block number that is not negative and a buffer with room for a block
of `bsize` bytes. -/
def Op.wellFormed (bsize : Nat) : Op → Bool
  | .read buf blockno => decide (0 ≤ blockno) && decide (bsize ≤ buf.length)
  | .write buf blockno _ => decide (0 ≤ blockno) && decide (bsize ≤ buf.length)
  | .set_zero blockno _ => decide (0 ≤ blockno)
  | .set_error blockno _ => decide (0 ≤ blockno)

/-- Block `c` looks the same in `bp'` as in `bp`: same flag byte, same data bytes, and
`pmemblk_read` of `c` into `rbuf` returns with the same return value, buffer and `errno`. -/
def same_block (bp bp' : Base) (c : Nat) (rbuf : List Nat) : Prop :=
  bp'.flags.getD c 0 = bp.flags.getD c 0 ∧
  slice bp'.data (c * bp.bsize) bp.bsize = slice bp.data (c * bp.bsize) bp.bsize ∧
  ∃ r r', pmemblk_read bp rbuf (c : Int) = some r ∧
    pmemblk_read bp' rbuf (c : Int) = some r' ∧
    r'.ret = r.ret ∧ r'.buf = r.buf ∧ r'.err = r.err

/-- What the caller of `pmemblk_read` observes: return value, buffer and `errno`. -/
def ReadResult.observed (r : ReadResult) : Int × List Nat × Option Errno :=
  (r.ret, r.buf, r.err)

/-- The call is a committing write to, or a committing error mark of, block `b`. -/
def Op.marks (b : Nat) : Op → Bool
  | .write _ blockno .commit => decide (blockno = (b : Int))
  | .set_error blockno .commit => decide (blockno = (b : Int))
  | _ => false

/-! ## Sample pools -/

/-- Three blocks of four bytes in a 14-byte data region: block 0 never written,
block 1 written, block 2 written and marked bad. -/
def sample_pool : Base :=
  ⟨[0, 0, 0, 0, 65, 66, 67, 68, 69, 70, 71, 72, 0, 0], [0, 1, 3], 4, 3⟩

/-- One block of two bytes that has been written and then marked bad. -/
def errored_pool : Base := ⟨[7, 7], [3], 2, 1⟩

/-- The pool a committed `pmemblk_map` leaves for a new pool. -/
def new_pool (bsize fsize : Nat) : Base :=
  ⟨List.replicate (usable_bytes fsize) 0, List.replicate (usable_bytes fsize / bsize) 0,
    bsize, usable_bytes fsize / bsize⟩

/-- Calls made on a new pool of three 4-byte blocks, none of which writes a committed
block 0 or marks it bad. -/
def sample_ops : List Op :=
  [ .write [1, 2, 3, 4] 1 .commit, .set_error 2 .commit, .set_zero 0 .commit,
    .write [5, 6, 7, 8] 0 (.abortAfter 4), .set_error 0 (.abortAfter 2),
    .read [9, 9, 9, 9] 2, .set_zero 7 .commit ]

/-- The same call `n` times in succession. -/
def iterate_op (op : Base → Option Result) : Nat → Base → Option Base
  | 0, bp => some bp
  | n + 1, bp => (op bp).bind fun r => iterate_op op n r.bp

/-! ## Machine integers: basic facts -/

theorem toLongLong_of_lt {n : Nat} (h : n < 2 ^ 63) : toLongLong n = (n : Int) := by
  have h1 : n % 2 ^ 64 = n := Nat.mod_eq_of_lt (by omega)
  unfold toLongLong
  rw [h1, if_pos h]

theorem toLongLong_le (n : Nat) : toLongLong n ≤ (n : Int) := by
  unfold toLongLong
  have h1 : n % 2 ^ 64 ≤ n := Nat.mod_le _ _
  split <;> omega

theorem toSizeT_natCast {b : Nat} (h : b < 2 ^ 64) : toSizeT (b : Int) = b := by
  unfold toSizeT
  have : ((b : Int) % 2 ^ 64) = (b : Int) := Int.emod_eq_of_lt (by omega) (by omega)
  rw [this]; simp

theorem lock_index_natCast (b : Nat) : lock_index (b : Int) = some (b % 256) := by
  have h : Int.tmod (b : Int) (MAX_THREADS : Nat) = ((b % 256 : Nat) : Int) := by
    rw [Int.ofNat_tmod]; rfl
  have h2 : b % 256 < 256 := Nat.mod_lt _ (by decide)
  have h3 : (0 : Int) ≤ ((b % 256 : Nat) : Int) ∧
      ((b % 256 : Nat) : Int) < ((MAX_THREADS : Nat) : Int) := by
    constructor
    · omega
    · simp only [MAX_THREADS]; omega
  simp only [lock_index, h]
  rw [if_pos h3, Int.toNat_ofNat]

theorem flag_index_natCast {bp : Base} {b : Nat} (h : b < bp.flags.length) :
    flag_index bp (b : Int) = some b := by
  unfold flag_index
  rw [if_pos]
  · simp
  · constructor <;> omega

theorem block_off_natCast {bp : Base} {b : Nat} (h : b * bp.bsize + bp.bsize < 2 ^ 64)
    (hb : b < 2 ^ 64) : block_off bp (b : Int) = b * bp.bsize := by
  unfold block_off
  rw [toSizeT_natCast hb]
  exact Nat.mod_eq_of_lt (by omega)

/-! ## Flag bytes -/

theorem or_mod_256 (f c : Nat) : (f ||| c) % 256 = ((f % 256) ||| c) % 256 := by
  have h : (256 : Nat) = 2 ^ 8 := by norm_num
  rw [h]
  apply Nat.eq_of_testBit_eq
  intro i
  simp only [Nat.testBit_mod_two_pow, Nat.testBit_or]
  cases decide (i < 8) <;> simp

theorem and_mod_256 (f c : Nat) : (f &&& c) % 256 = ((f % 256) &&& c) % 256 := by
  have h : (256 : Nat) = 2 ^ 8 := by norm_num
  rw [h]
  apply Nat.eq_of_testBit_eq
  intro i
  simp only [Nat.testBit_mod_two_pow, Nat.testBit_and]
  cases decide (i < 8) <;> simp

theorem flag_after_write_mod (f : Nat) : flag_after_write f = flag_after_write (f % 256) := by
  simp only [flag_after_write, toUInt8]
  rw [and_mod_256 f]

theorem flag_after_set_zero_mod (f : Nat) :
    flag_after_set_zero f = flag_after_set_zero (f % 256) := by
  simp only [flag_after_set_zero, toUInt8]
  rw [and_mod_256 f]

theorem flag_after_set_error_mod (f : Nat) :
    flag_after_set_error f = flag_after_set_error (f % 256) := by
  simp only [flag_after_set_error, toUInt8]
  rw [or_mod_256 f]

set_option maxRecDepth 100000 in
theorem flag_byte_facts : ∀ g < 256,
    (flag_after_write g &&& ERROR_MASK = 0 ∧ flag_after_write g &&& ZERO_MASK ≠ 0) ∧
    (flag_after_set_error g &&& ERROR_MASK ≠ 0) ∧
    (flag_after_set_zero g &&& ZERO_MASK = 0 ∧
      (flag_after_set_zero g &&& ERROR_MASK = 0 ↔ g &&& ERROR_MASK = 0)) ∧
    flag_after_set_zero (flag_after_set_zero g) = flag_after_set_zero g ∧
    flag_after_set_error (flag_after_set_error g) = flag_after_set_error g := by
  decide

theorem flag_after_write_error (f : Nat) : flag_after_write f &&& ERROR_MASK = 0 := by
  rw [flag_after_write_mod]
  exact (flag_byte_facts _ (Nat.mod_lt _ (by decide))).1.1

theorem flag_after_write_zero (f : Nat) : flag_after_write f &&& ZERO_MASK ≠ 0 := by
  rw [flag_after_write_mod]
  exact (flag_byte_facts _ (Nat.mod_lt _ (by decide))).1.2

theorem flag_after_set_error_error (f : Nat) : flag_after_set_error f &&& ERROR_MASK ≠ 0 := by
  rw [flag_after_set_error_mod]
  exact (flag_byte_facts _ (Nat.mod_lt _ (by decide))).2.1

theorem flag_after_set_zero_zero (f : Nat) : flag_after_set_zero f &&& ZERO_MASK = 0 := by
  rw [flag_after_set_zero_mod]
  exact (flag_byte_facts _ (Nat.mod_lt _ (by decide))).2.2.1.1

theorem flag_after_set_zero_idem (f : Nat) :
    flag_after_set_zero (flag_after_set_zero f) = flag_after_set_zero f := by
  rw [flag_after_set_zero_mod f]
  exact (flag_byte_facts _ (Nat.mod_lt _ (by decide))).2.2.2.1

theorem flag_after_set_error_idem (f : Nat) :
    flag_after_set_error (flag_after_set_error f) = flag_after_set_error f := by
  rw [flag_after_set_error_mod f]
  exact (flag_byte_facts _ (Nat.mod_lt _ (by decide))).2.2.2.2

/-! ## Regions -/

theorem splice_length {mem : List Nat} {off : Nat} {src : List Nat}
    (h : off + src.length ≤ mem.length) : (splice mem off src).length = mem.length := by
  simp only [splice, List.length_append, List.length_take, List.length_drop]
  omega

theorem slice_length {mem : List Nat} {off n : Nat} (h : off + n ≤ mem.length) :
    (slice mem off n).length = n := by
  simp only [slice, List.length_take, List.length_drop]
  omega

theorem slice_splice {mem : List Nat} {off : Nat} {src : List Nat}
    (h : off + src.length ≤ mem.length) : slice (splice mem off src) off src.length = src := by
  have h1 : (mem.take off).length = off := by simp; omega
  simp only [slice, splice, List.append_assoc]
  rw [List.drop_left' h1, List.take_left' rfl]

theorem splice_slice {mem : List Nat} {off n : Nat} (h : off + n ≤ mem.length) :
    splice mem off (slice mem off n) = mem := by
  simp only [splice, slice_length h]
  simp only [slice]
  rw [List.append_assoc, ← List.drop_drop, List.take_append_drop, List.take_append_drop]

theorem splice_splice {mem : List Nat} {off : Nat} {a c : List Nat}
    (h : off + a.length ≤ mem.length) (hac : c.length = a.length) :
    splice (splice mem off a) off c = splice mem off c := by
  have h1 : (mem.take off).length = off := by simp; omega
  have h2 : (mem.take off ++ a).length = off + c.length := by simp [h1, hac]
  simp only [splice]
  rw [List.append_assoc (mem.take off) a, List.take_left' h1, ← List.append_assoc,
    List.drop_left' h2, hac]

theorem splice_singleton {mem : List Nat} {i : Nat} (h : i < mem.length) (x : Nat) :
    splice mem i [x] = mem.set i x := by
  rw [List.set_eq_take_append_cons_drop, if_pos h]
  simp [splice]

theorem slice_one {mem : List Nat} {i : Nat} (h : i < mem.length) :
    slice mem i 1 = [mem.getD i 0] := by
  rw [slice, List.drop_eq_getElem_cons h, List.getD_eq_getElem _ _ h]
  rfl

theorem set_getD_self {mem : List Nat} {i : Nat} (h : i < mem.length) :
    mem.set i (mem.getD i 0) = mem := by
  apply List.ext_getElem
  · simp
  · intro j h1 h2
    rw [List.getElem_set]
    split
    · next hij => subst hij; exact List.getD_eq_getElem _ _ h
    · rfl

theorem getD_set_self {mem : List Nat} {i : Nat} (h : i < mem.length) (x : Nat) :
    (mem.set i x).getD i 0 = x := by
  rw [List.getD_eq_getElem?_getD, List.getElem?_set_self h]
  rfl

theorem getD_set_ne {mem : List Nat} {i j : Nat} (h : i ≠ j) (x : Nat) :
    (mem.set i x).getD j 0 = mem.getD j 0 := by
  rw [List.getD_eq_getElem?_getD, List.getElem?_set_ne h, List.getD_eq_getElem?_getD]

/-! ## Steps of the block transactions on a valid block -/

theorem flag_add_range_natCast {bp : Base} {b : Nat} (h : b < bp.flags.length)
    (u : List Snapshot) :
    flag_add_range (b : Int) ⟨bp, u⟩ =
      some ⟨bp, Snapshot.range .flags b [bp.flags.getD b 0] :: u⟩ := by
  have h1 : b + 1 ≤ bp.flags.length := h
  simp only [flag_add_range, flag_index_natCast h, tx_add_range_direct, Base.region,
    region_read, if_pos h1, slice_one h, Option.map_some']

theorem flag_update_natCast {bp : Base} {b : Nat} (h : b < bp.flags.length) (f : Nat → Nat)
    (u : List Snapshot) :
    flag_update (b : Int) f ⟨bp, u⟩ =
      some ⟨{ bp with flags := bp.flags.set b (toUInt8 (f (bp.flags.getD b 0))) }, u⟩ := by
  simp only [flag_update, flag_index_natCast h, List.getElem?_eq_getElem h,
    List.getD_eq_getElem _ _ h]

theorem Base.Valid.guard {bp : Base} (hv : bp.Valid) {b : Nat} (hb : b < bp.nblocks) :
    ¬ ((b : Int) ≥ toLongLong bp.nblocks) := by
  obtain ⟨h1, _, _, h4⟩ := hv
  rw [toLongLong_of_lt (by omega)]
  omega

theorem Base.Valid.block_off {bp : Base} (hv : bp.Valid) {b : Nat} (hb : b < bp.nblocks) :
    ObjPmemblk.block_off bp (b : Int) = b * bp.bsize ∧
      b * bp.bsize + bp.bsize ≤ bp.data.length := by
  obtain ⟨h1, h2, h3, h4⟩ := hv
  have h5 : (b + 1) * bp.bsize ≤ bp.nblocks * bp.bsize := Nat.mul_le_mul_right _ hb
  have h6 : b * bp.bsize + bp.bsize ≤ bp.data.length := by
    rw [Nat.add_mul, Nat.one_mul] at h5; omega
  exact ⟨block_off_natCast (by omega) (by omega), h6⟩

theorem set_error_commit_eq {bp : Base} (hv : bp.Valid) {b : Nat} (hb : b < bp.nblocks) :
    pmemblk_set_error bp (b : Int) .commit = some ⟨0, set_error_commit bp b, tx_trace b true⟩ := by
  have hf : b < bp.flags.length := by rw [hv.1]; exact hb
  unfold pmemblk_set_error
  rw [if_neg (hv.guard hb)]
  simp only [locked_tx, lock_index_natCast, tx_run, set_error_body, runSteps,
    flag_add_range_natCast hf, Option.some_bind, flag_update_natCast hf, Option.map_some']
  rfl

theorem set_zero_commit_eq {bp : Base} (hv : bp.Valid) {b : Nat} (hb : b < bp.nblocks) :
    pmemblk_set_zero bp (b : Int) .commit = some ⟨0, set_zero_commit bp b, tx_trace b true⟩ := by
  have hf : b < bp.flags.length := by rw [hv.1]; exact hb
  unfold pmemblk_set_zero
  rw [if_neg (hv.guard hb)]
  simp only [locked_tx, lock_index_natCast, tx_run, set_zero_body, runSteps,
    flag_add_range_natCast hf, Option.some_bind, flag_update_natCast hf, Option.map_some']
  rfl

theorem restore_flag {flags : List Nat} {b : Nat} (h : b < flags.length) (v : Nat) :
    splice (flags.set b v) b [flags.getD b 0] = flags := by
  rw [splice_singleton (by rw [List.length_set]; exact h), List.set_set, set_getD_self h]

theorem restore_flag_self {flags : List Nat} {b : Nat} (h : b < flags.length) :
    splice flags b [flags.getD b 0] = flags := by
  rw [splice_singleton h, set_getD_self h]

theorem set_error_abort_eq {bp : Base} (hv : bp.Valid) {b : Nat} (hb : b < bp.nblocks)
    (k : Nat) :
    pmemblk_set_error bp (b : Int) (.abortAfter k) = some ⟨1, bp, tx_trace b false⟩ := by
  have hf : b < bp.flags.length := by rw [hv.1]; exact hb
  unfold pmemblk_set_error
  rw [if_neg (hv.guard hb)]
  rcases k with _ | _ | k <;>
    simp only [locked_tx, lock_index_natCast, tx_run, set_error_body, runSteps, List.take_zero,
      List.take_succ_cons, List.take_nil, Option.some_bind, Option.map_some',
      flag_add_range_natCast hf, flag_update_natCast hf, rollback, Snapshot.restore,
      Base.setRegion, Base.region, restore_flag hf, restore_flag_self hf, tx_trace] <;>
    rfl

theorem set_zero_abort_eq {bp : Base} (hv : bp.Valid) {b : Nat} (hb : b < bp.nblocks)
    (k : Nat) :
    pmemblk_set_zero bp (b : Int) (.abortAfter k) = some ⟨1, bp, tx_trace b false⟩ := by
  have hf : b < bp.flags.length := by rw [hv.1]; exact hb
  unfold pmemblk_set_zero
  rw [if_neg (hv.guard hb)]
  rcases k with _ | _ | k <;>
    simp only [locked_tx, lock_index_natCast, tx_run, set_zero_body, runSteps, List.take_zero,
      List.take_succ_cons, List.take_nil, Option.some_bind, Option.map_some',
      flag_add_range_natCast hf, flag_update_natCast hf, rollback, Snapshot.restore,
      Base.setRegion, Base.region, restore_flag hf, restore_flag_self hf, tx_trace] <;>
    rfl

theorem memcpy_eq {mem : List Nat} {off n : Nat} {src : List Nat} (h1 : n ≤ src.length)
    (h2 : off + n ≤ mem.length) : memcpy mem off src n = some (splice mem off (src.take n)) := by
  have h3 : (src.take n).length = n := by simp; omega
  simp only [memcpy, if_pos h1, region_write, h3, if_pos h2]

theorem write_commit_eq {bp : Base} (hv : bp.Valid) {b : Nat} (hb : b < bp.nblocks)
    {buf : List Nat} (hbuf : bp.bsize ≤ buf.length) :
    pmemblk_write bp buf (b : Int) .commit = some ⟨0, write_commit bp buf b, tx_trace b true⟩ := by
  have hf : b < bp.flags.length := by rw [hv.1]; exact hb
  obtain ⟨ho, hr⟩ := hv.block_off hb
  unfold pmemblk_write
  rw [if_neg (hv.guard hb)]
  simp only [locked_tx, lock_index_natCast, tx_run, write_body, runSteps, tx_add_range_direct,
    Base.region, ho, region_read, if_pos hr, Option.map_some', Option.some_bind,
    memcpy_eq hbuf hr]
  rw [flag_add_range_natCast (by exact hf)]
  simp only [Option.some_bind]
  rw [flag_update_natCast (by exact hf)]
  simp only [Option.some_bind]
  rw [flag_update_natCast (by simp only [List.length_set]; exact hf)]
  simp only [Option.some_bind, Option.map_some', List.set_set, getD_set_self hf]
  rfl

theorem restore_data {data : List Nat} {off n : Nat} (h : off + n ≤ data.length)
    {new : List Nat} (hn : new.length = n) :
    splice (splice data off new) off (slice data off n) = data := by
  rw [splice_splice (by omega) (by rw [slice_length h, hn]), splice_slice h]

theorem write_abort_eq {bp : Base} (hv : bp.Valid) {b : Nat} (hb : b < bp.nblocks)
    {buf : List Nat} (hbuf : bp.bsize ≤ buf.length) (k : Nat) :
    pmemblk_write bp buf (b : Int) (.abortAfter k) = some ⟨1, bp, tx_trace b false⟩ := by
  have hf : b < bp.flags.length := by rw [hv.1]; exact hb
  obtain ⟨ho, hr⟩ := hv.block_off hb
  have hlen : (buf.take bp.bsize).length = bp.bsize := by simp; omega
  have hfs : ∀ v, b < (bp.flags.set b v).length := by
    intro v; rw [List.length_set]; exact hf
  unfold pmemblk_write
  rw [if_neg (hv.guard hb)]
  rcases k with _ | _ | _ | _ | _ | k <;>
    simp only [locked_tx, lock_index_natCast, tx_run, write_body, runSteps, List.take_zero,
      List.take_succ_cons, List.take_nil, Option.some_bind, Option.map_some',
      tx_add_range_direct, Base.region, ho, region_read, if_pos hr, memcpy_eq hbuf hr,
      @flag_add_range_natCast bp b hf, @flag_add_range_natCast { bp with
        data := splice bp.data (b * bp.bsize) (buf.take bp.bsize) } b hf,
      @flag_update_natCast { bp with
        data := splice bp.data (b * bp.bsize) (buf.take bp.bsize) } b hf,
      @flag_update_natCast { bp with
        data := splice bp.data (b * bp.bsize) (buf.take bp.bsize),
        flags := bp.flags.set b _ } b (hfs _),
      List.set_set, rollback, Snapshot.restore,
      Base.setRegion, restore_flag hf, restore_flag_self hf, splice_slice hr,
      restore_data hr hlen, tx_trace] <;>
    rfl

theorem read_eq {bp : Base} (hv : bp.Valid) {b : Nat} (hb : b < bp.nblocks)
    {buf : List Nat} (hbuf : bp.bsize ≤ buf.length) :
    pmemblk_read bp buf (b : Int) = some
      (if bp.flags.getD b 0 &&& ERROR_MASK ≠ 0 then
        ⟨1, bp, buf, some Errno.EIO, read_trace b⟩
      else if bp.flags.getD b 0 &&& ZERO_MASK = 0 then
        ⟨0, bp, List.replicate bp.bsize 0 ++ buf.drop bp.bsize, none, read_trace b⟩
      else
        ⟨0, bp, slice bp.data (b * bp.bsize) bp.bsize ++ buf.drop bp.bsize, none,
          read_trace b⟩) := by
  have hf : b < bp.flags.length := by rw [hv.1]; exact hb
  obtain ⟨ho, hr⟩ := hv.block_off hb
  have hz : 0 + (List.replicate bp.bsize 0).length ≤ buf.length := by simp; exact hbuf
  have hs : bp.bsize ≤ (slice bp.data (b * bp.bsize) bp.bsize).length := by
    rw [slice_length hr]
  have hs2 : (slice bp.data (b * bp.bsize) bp.bsize).take bp.bsize =
      slice bp.data (b * bp.bsize) bp.bsize :=
    List.take_of_length_le (by rw [slice_length hr])
  unfold pmemblk_read
  rw [if_neg (hv.guard hb)]
  simp only [lock_index_natCast, flag_index_natCast hf, List.getElem?_eq_getElem hf,
    List.getD_eq_getElem _ _ hf, read_trace]
  split
  · rfl
  · split
    · simp only [memset_zero, region_write, splice, List.take_zero, List.nil_append,
        List.length_replicate, Nat.zero_add, if_pos hbuf, Option.map_some']
    · simp only [ho, region_read, if_pos hr, Option.some_bind,
        memcpy_eq hs (by omega : 0 + bp.bsize ≤ buf.length), Option.map_some', splice, hs2,
        List.take_zero, List.nil_append, slice_length hr, Nat.zero_add]

/-! ## The layout is kept by every committed operation -/

theorem write_commit_valid {bp : Base} (hv : bp.Valid) {b : Nat} (hb : b < bp.nblocks)
    {buf : List Nat} (hbuf : bp.bsize ≤ buf.length) : (write_commit bp buf b).Valid := by
  obtain ⟨_, hr⟩ := hv.block_off hb
  have hlen : (buf.take bp.bsize).length = bp.bsize := by simp; omega
  obtain ⟨h1, h2, h3, h4⟩ := hv
  have hd : (splice bp.data (b * bp.bsize) (buf.take bp.bsize)).length = bp.data.length :=
    splice_length (by omega)
  simp only [Base.Valid, write_commit, List.length_set, hd]
  exact ⟨h1, h2, h3, h4⟩

theorem set_zero_commit_valid {bp : Base} (hv : bp.Valid) (b : Nat) :
    (set_zero_commit bp b).Valid := by
  simp only [Base.Valid, set_zero_commit, List.length_set]
  exact hv

theorem set_error_commit_valid {bp : Base} (hv : bp.Valid) (b : Nat) :
    (set_error_commit bp b).Valid := by
  simp only [Base.Valid, set_error_commit, List.length_set]
  exact hv

theorem read_after_write {bp : Base} (hv : bp.Valid) {b : Nat} (hb : b < bp.nblocks)
    {data buf : List Nat} (hd : data.length = bp.bsize) (hbuf : bp.bsize ≤ buf.length) :
    pmemblk_read (write_commit bp data b) buf (b : Int) =
      some ⟨0, write_commit bp data b, data ++ buf.drop bp.bsize, none, read_trace b⟩ := by
  have hf : b < bp.flags.length := by rw [hv.1]; exact hb
  obtain ⟨_, hr⟩ := hv.block_off hb
  have hv2 := write_commit_valid hv hb (Nat.le_of_eq hd.symm)
  have hb2 : b < (write_commit bp data b).nblocks := hb
  have ht : data.take bp.bsize = data := List.take_of_length_le (Nat.le_of_eq hd)
  have hfl : (write_commit bp data b).flags.getD b 0 =
      flag_after_write (bp.flags.getD b 0) := getD_set_self hf _
  have hsl : slice (write_commit bp data b).data (b * bp.bsize) bp.bsize = data := by
    have := @slice_splice bp.data (b * bp.bsize) data (by omega)
    rw [hd] at this
    simp only [write_commit, ht]
    exact this
  have hbs : (write_commit bp data b).bsize = bp.bsize := rfl
  rw [read_eq hv2 hb2 (by exact hbuf), hfl, hbs, hsl,
    if_neg (by rw [flag_after_write_error]; simp), if_neg (flag_after_write_zero _)]

theorem and_error_mask_mod (f : Nat) : (f % 256) &&& ERROR_MASK = f &&& ERROR_MASK := by
  have h : f % 256 = f &&& (2 ^ 8 - 1) := (Nat.and_pow_two_sub_one_eq_mod f 8).symm
  rw [h, Nat.land_assoc]
  rfl

theorem flag_after_set_zero_error (f : Nat) :
    flag_after_set_zero f &&& ERROR_MASK = 0 ↔ f &&& ERROR_MASK = 0 := by
  rw [flag_after_set_zero_mod, ← and_error_mask_mod f]
  exact (flag_byte_facts _ (Nat.mod_lt _ (by decide))).2.2.1.2

/-! ## Round trips -/

/-- C1. Write/read round trip: on a pool with the block layout, for a block number
`b < nblocks` and `data` of exactly `bsize` bytes, a `pmemblk_write` that commits
returns `0`, and the `pmemblk_read` of `b` that follows returns `0` with the first
`bsize` bytes of the caller's buffer equal to `data` (the whole buffer when it is
`bsize` long), whatever the flag byte and the data bytes of `b` were before. -/
theorem write_then_read_returns_data (bp : Base) (b : Nat) (data buf : List Nat)
    (hv : bp.Valid) (hb : b < bp.nblocks) (hd : data.length = bp.bsize)
    (hbuf : bp.bsize ≤ buf.length) :
    ∃ r, pmemblk_write bp data (b : Int) .commit = some r ∧ r.ret = 0 ∧
      pmemblk_read r.bp buf (b : Int) =
        some ⟨0, r.bp, data ++ buf.drop bp.bsize, none, read_trace b⟩ :=
  ⟨_, write_commit_eq hv hb (Nat.le_of_eq hd.symm), rfl, read_after_write hv hb hd hbuf⟩

theorem write_then_read_returns_data_witness :
    ∃ r, pmemblk_write sample_pool [1, 2, 3, 4] ((2 : Nat) : Int) .commit = some r ∧ r.ret = 0 ∧
      pmemblk_read r.bp [9, 9, 9, 9] ((2 : Nat) : Int) =
        some ⟨0, r.bp, [1, 2, 3, 4] ++ [9, 9, 9, 9].drop sample_pool.bsize, none,
          read_trace 2⟩ :=
  write_then_read_returns_data sample_pool 2 [1, 2, 3, 4] [9, 9, 9, 9]
    (by decide) (by decide) (by decide) (by decide)

/-- C3. Error marking: on a pool with the block layout and for `b < nblocks`, whatever
the flag byte of `b`, a committed `pmemblk_set_error` returns `0`, the `pmemblk_read`
that follows returns `1` with `errno = EIO` and leaves the caller's buffer as it was;
a committed `pmemblk_write` of `data` after that returns `0` and the next
`pmemblk_read` returns `0` with `data` in the buffer. -/
theorem set_error_then_read_fails_until_write (bp : Base) (b : Nat) (data buf : List Nat)
    (hv : bp.Valid) (hb : b < bp.nblocks) (hd : data.length = bp.bsize)
    (hbuf : bp.bsize ≤ buf.length) :
    ∃ r1, pmemblk_set_error bp (b : Int) .commit = some r1 ∧ r1.ret = 0 ∧
      pmemblk_read r1.bp buf (b : Int) = some ⟨1, r1.bp, buf, some Errno.EIO, read_trace b⟩ ∧
      ∃ r2, pmemblk_write r1.bp data (b : Int) .commit = some r2 ∧ r2.ret = 0 ∧
        pmemblk_read r2.bp buf (b : Int) =
          some ⟨0, r2.bp, data ++ buf.drop bp.bsize, none, read_trace b⟩ := by
  have hf : b < bp.flags.length := by rw [hv.1]; exact hb
  have hv1 := set_error_commit_valid hv b
  have hb1 : b < (set_error_commit bp b).nblocks := hb
  have hfl : (set_error_commit bp b).flags.getD b 0 =
      flag_after_set_error (bp.flags.getD b 0) := getD_set_self hf _
  refine ⟨_, set_error_commit_eq hv hb, rfl, ?_, _,
    @write_commit_eq _ hv1 _ hb1 data (Nat.le_of_eq hd.symm), rfl,
    read_after_write hv1 hb1 hd hbuf⟩
  rw [read_eq hv1 hb1 (by exact hbuf), hfl, if_pos (flag_after_set_error_error _)]

theorem set_error_then_read_fails_until_write_witness :
    ∃ r1, pmemblk_set_error sample_pool ((1 : Nat) : Int) .commit = some r1 ∧ r1.ret = 0 ∧
      pmemblk_read r1.bp [9, 9, 9, 9] ((1 : Nat) : Int) =
        some ⟨1, r1.bp, [9, 9, 9, 9], some Errno.EIO, read_trace 1⟩ ∧
      ∃ r2, pmemblk_write r1.bp [1, 2, 3, 4] ((1 : Nat) : Int) .commit = some r2 ∧ r2.ret = 0 ∧
        pmemblk_read r2.bp [9, 9, 9, 9] ((1 : Nat) : Int) =
          some ⟨0, r2.bp, [1, 2, 3, 4] ++ [9, 9, 9, 9].drop sample_pool.bsize, none,
            read_trace 1⟩ :=
  set_error_then_read_fails_until_write sample_pool 1 [1, 2, 3, 4] [9, 9, 9, 9]
    (by decide) (by decide) (by decide) (by decide)

/-- C4, as the claim states it, fails on a block that is marked bad: on `errored_pool`
the committed `pmemblk_set_zero` of block 0 returns `0` and leaves the flag byte `2`,
and the `pmemblk_read` that follows returns `1` with `errno = EIO` instead of zeros. -/
theorem set_zero_keeps_error_mark :
    errored_pool.Valid ∧
    pmemblk_set_zero errored_pool 0 .commit =
      some ⟨0, ⟨[7, 7], [2], 2, 1⟩, [Event.tx_begin (some 0), Event.tx_end true]⟩ ∧
    pmemblk_read ⟨[7, 7], [2], 2, 1⟩ [9, 9] 0 =
      some ⟨1, ⟨[7, 7], [2], 2, 1⟩, [9, 9], some Errno.EIO,
        [Event.mutex_lock 0, Event.mutex_unlock 0]⟩ := by
  decide

/-- C4, amended. Zeroing: on a pool with the block layout and for `b < nblocks`, a
committed `pmemblk_set_zero` returns `0` and leaves the data region as it was; the
`pmemblk_read` that follows returns `0` and `bsize` zero bytes when the ERROR bit of
`b` was clear before the call, and returns `1` with `errno = EIO` when it was set; a
committed `pmemblk_write` of `data` after that returns `0` and the next `pmemblk_read`
returns `0` with `data` in the buffer. -/
theorem set_zero_then_read (bp : Base) (b : Nat) (data buf : List Nat)
    (hv : bp.Valid) (hb : b < bp.nblocks) (hd : data.length = bp.bsize)
    (hbuf : bp.bsize ≤ buf.length) :
    ∃ r1, pmemblk_set_zero bp (b : Int) .commit = some r1 ∧ r1.ret = 0 ∧
      r1.bp.data = bp.data ∧
      (bp.flags.getD b 0 &&& ERROR_MASK = 0 →
        pmemblk_read r1.bp buf (b : Int) =
          some ⟨0, r1.bp, List.replicate bp.bsize 0 ++ buf.drop bp.bsize, none, read_trace b⟩) ∧
      (bp.flags.getD b 0 &&& ERROR_MASK ≠ 0 →
        pmemblk_read r1.bp buf (b : Int) =
          some ⟨1, r1.bp, buf, some Errno.EIO, read_trace b⟩) ∧
      ∃ r2, pmemblk_write r1.bp data (b : Int) .commit = some r2 ∧ r2.ret = 0 ∧
        pmemblk_read r2.bp buf (b : Int) =
          some ⟨0, r2.bp, data ++ buf.drop bp.bsize, none, read_trace b⟩ := by
  have hf : b < bp.flags.length := by rw [hv.1]; exact hb
  have hv1 := set_zero_commit_valid hv b
  have hb1 : b < (set_zero_commit bp b).nblocks := hb
  have hfl : (set_zero_commit bp b).flags.getD b 0 =
      flag_after_set_zero (bp.flags.getD b 0) := getD_set_self hf _
  have hbs : (set_zero_commit bp b).bsize = bp.bsize := rfl
  refine ⟨_, set_zero_commit_eq hv hb, rfl, rfl, ?_, ?_, _,
    @write_commit_eq _ hv1 _ hb1 data (Nat.le_of_eq hd.symm), rfl,
    read_after_write hv1 hb1 hd hbuf⟩
  · intro he
    rw [read_eq hv1 hb1 (by exact hbuf), hfl, hbs,
      if_neg (by rw [(flag_after_set_zero_error _).2 he]; simp),
      if_pos (flag_after_set_zero_zero _)]
  · intro he
    rw [read_eq hv1 hb1 (by exact hbuf), hfl,
      if_pos (fun h => he ((flag_after_set_zero_error _).1 h))]

theorem set_zero_then_read_witness :
    ∃ r1, pmemblk_set_zero sample_pool ((1 : Nat) : Int) .commit = some r1 ∧ r1.ret = 0 ∧
      r1.bp.data = sample_pool.data ∧
      (sample_pool.flags.getD 1 0 &&& ERROR_MASK = 0 →
        pmemblk_read r1.bp [9, 9, 9, 9] ((1 : Nat) : Int) =
          some ⟨0, r1.bp, List.replicate sample_pool.bsize 0 ++
            [9, 9, 9, 9].drop sample_pool.bsize, none, read_trace 1⟩) ∧
      (sample_pool.flags.getD 1 0 &&& ERROR_MASK ≠ 0 →
        pmemblk_read r1.bp [9, 9, 9, 9] ((1 : Nat) : Int) =
          some ⟨1, r1.bp, [9, 9, 9, 9], some Errno.EIO, read_trace 1⟩) ∧
      ∃ r2, pmemblk_write r1.bp [1, 2, 3, 4] ((1 : Nat) : Int) .commit = some r2 ∧ r2.ret = 0 ∧
        pmemblk_read r2.bp [9, 9, 9, 9] ((1 : Nat) : Int) =
          some ⟨0, r2.bp, [1, 2, 3, 4] ++ [9, 9, 9, 9].drop sample_pool.bsize, none,
            read_trace 1⟩ :=
  set_zero_then_read sample_pool 1 [1, 2, 3, 4] [9, 9, 9, 9]
    (by decide) (by decide) (by decide) (by decide)

/-! ## Rejected and aborted calls -/

theorem out_of_range_guard {bp : Base} {blockno : Int} (h : (bp.nblocks : Int) ≤ blockno) :
    blockno ≥ toLongLong bp.nblocks :=
  le_trans (toLongLong_le _) h

/-- C5. Out-of-range rejection: for every pool and every block number
`blockno ≥ nblocks`, each of `pmemblk_read`, `pmemblk_write`, `pmemblk_set_zero` and
`pmemblk_set_error` returns `1`, takes no lock and starts no transaction (its event
trace is empty), and leaves the root object, the flags region and the data region
(and, for the read, the caller's buffer) as they were. -/
theorem out_of_range_rejected (bp : Base) (buf : List Nat) (blockno : Int) (fate : TxFate)
    (h : (bp.nblocks : Int) ≤ blockno) :
    pmemblk_read bp buf blockno = some ⟨1, bp, buf, none, []⟩ ∧
    pmemblk_write bp buf blockno fate = some ⟨1, bp, []⟩ ∧
    pmemblk_set_zero bp blockno fate = some ⟨1, bp, []⟩ ∧
    pmemblk_set_error bp blockno fate = some ⟨1, bp, []⟩ := by
  have hg := out_of_range_guard h
  refine ⟨?_, ?_, ?_, ?_⟩
  · unfold pmemblk_read; rw [if_pos hg]
  · unfold pmemblk_write; rw [if_pos hg]
  · unfold pmemblk_set_zero; rw [if_pos hg]
  · unfold pmemblk_set_error; rw [if_pos hg]

theorem out_of_range_rejected_witness :
    pmemblk_read sample_pool [9, 9, 9, 9] 3 = some ⟨1, sample_pool, [9, 9, 9, 9], none, []⟩ ∧
    pmemblk_write sample_pool [9, 9, 9, 9] 3 .commit = some ⟨1, sample_pool, []⟩ ∧
    pmemblk_set_zero sample_pool 3 .commit = some ⟨1, sample_pool, []⟩ ∧
    pmemblk_set_error sample_pool 3 .commit = some ⟨1, sample_pool, []⟩ :=
  out_of_range_rejected sample_pool [9, 9, 9, 9] 3 .commit (by decide)

/-- C6. Abort atomicity: on a pool with the block layout, for `b < nblocks` and a
source buffer of at least `bsize` bytes, when the transaction of `pmemblk_write`,
`pmemblk_set_zero` or `pmemblk_set_error` aborts after any number `k` of the steps of
its body (undo-log registrations and stores), replaying the undo log gives back the
pool exactly as it was before the call - root object, flags region and data region -
and the call returns `1`. -/
theorem abort_leaves_pool_unchanged (bp : Base) (b : Nat) (buf : List Nat) (k : Nat)
    (hv : bp.Valid) (hb : b < bp.nblocks) (hbuf : bp.bsize ≤ buf.length) :
    pmemblk_write bp buf (b : Int) (.abortAfter k) = some ⟨1, bp, tx_trace b false⟩ ∧
    pmemblk_set_zero bp (b : Int) (.abortAfter k) = some ⟨1, bp, tx_trace b false⟩ ∧
    pmemblk_set_error bp (b : Int) (.abortAfter k) = some ⟨1, bp, tx_trace b false⟩ :=
  ⟨write_abort_eq hv hb hbuf k, set_zero_abort_eq hv hb k, set_error_abort_eq hv hb k⟩

theorem abort_leaves_pool_unchanged_witness :
    pmemblk_write sample_pool [1, 2, 3, 4] ((2 : Nat) : Int) (.abortAfter 4) =
      some ⟨1, sample_pool, tx_trace 2 false⟩ ∧
    pmemblk_set_zero sample_pool ((2 : Nat) : Int) (.abortAfter 4) =
      some ⟨1, sample_pool, tx_trace 2 false⟩ ∧
    pmemblk_set_error sample_pool ((2 : Nat) : Int) (.abortAfter 4) =
      some ⟨1, sample_pool, tx_trace 2 false⟩ :=
  abort_leaves_pool_unchanged sample_pool 2 [1, 2, 3, 4] 4 (by decide) (by decide) (by decide)

/-! ## Idempotence -/

theorem set_zero_commit_idem {bp : Base} {b : Nat} (hf : b < bp.flags.length) :
    set_zero_commit (set_zero_commit bp b) b = set_zero_commit bp b := by
  simp only [set_zero_commit, getD_set_self hf, List.set_set, flag_after_set_zero_idem]

theorem set_error_commit_idem {bp : Base} {b : Nat} (hf : b < bp.flags.length) :
    set_error_commit (set_error_commit bp b) b = set_error_commit bp b := by
  simp only [set_error_commit, getD_set_self hf, List.set_set, flag_after_set_error_idem]

theorem iterate_set_zero {bp : Base} (hv : bp.Valid) {b : Nat} (hb : b < bp.nblocks)
    (n : Nat) :
    iterate_op (fun s => pmemblk_set_zero s (b : Int) .commit) (n + 1) bp =
      some (set_zero_commit bp b) := by
  have hf : b < bp.flags.length := by rw [hv.1]; exact hb
  induction n with
  | zero => simp only [iterate_op, set_zero_commit_eq hv hb, Option.some_bind]
  | succ n ih =>
    have hv1 := set_zero_commit_valid hv b
    have hb1 : b < (set_zero_commit bp b).nblocks := hb
    rw [iterate_op, set_zero_commit_eq hv hb, Option.some_bind]
    simp only [iterate_op] at ih ⊢
    rw [set_zero_commit_eq hv hb, Option.some_bind] at ih
    rw [set_zero_commit_eq hv1 hb1, Option.some_bind, set_zero_commit_idem hf]
    exact ih

theorem iterate_set_error {bp : Base} (hv : bp.Valid) {b : Nat} (hb : b < bp.nblocks)
    (n : Nat) :
    iterate_op (fun s => pmemblk_set_error s (b : Int) .commit) (n + 1) bp =
      some (set_error_commit bp b) := by
  have hf : b < bp.flags.length := by rw [hv.1]; exact hb
  induction n with
  | zero => simp only [iterate_op, set_error_commit_eq hv hb, Option.some_bind]
  | succ n ih =>
    have hv1 := set_error_commit_valid hv b
    have hb1 : b < (set_error_commit bp b).nblocks := hb
    rw [iterate_op, set_error_commit_eq hv hb, Option.some_bind]
    simp only [iterate_op] at ih ⊢
    rw [set_error_commit_eq hv hb, Option.some_bind] at ih
    rw [set_error_commit_eq hv1 hb1, Option.some_bind, set_error_commit_idem hf]
    exact ih

/-- C7. Idempotence: on a pool with the block layout and for `b < nblocks`, one
committed `pmemblk_set_zero` of `b` yields a pool `s`, and `n ≥ 1` committed calls in
succession yield the same pool `s` (data, flags, block size and block count); likewise
for `pmemblk_set_error`. -/
theorem set_zero_set_error_idempotent (bp : Base) (b n : Nat)
    (hv : bp.Valid) (hb : b < bp.nblocks) (hn : 1 ≤ n) :
    (∃ s, iterate_op (fun s => pmemblk_set_zero s (b : Int) .commit) 1 bp = some s ∧
      iterate_op (fun s => pmemblk_set_zero s (b : Int) .commit) n bp = some s) ∧
    (∃ s, iterate_op (fun s => pmemblk_set_error s (b : Int) .commit) 1 bp = some s ∧
      iterate_op (fun s => pmemblk_set_error s (b : Int) .commit) n bp = some s) := by
  obtain ⟨m, rfl⟩ : ∃ m, n = m + 1 := ⟨n - 1, by omega⟩
  exact ⟨⟨_, iterate_set_zero hv hb 0, iterate_set_zero hv hb m⟩,
    ⟨_, iterate_set_error hv hb 0, iterate_set_error hv hb m⟩⟩

theorem set_zero_set_error_idempotent_witness :
    (∃ s, iterate_op (fun s => pmemblk_set_zero s ((1 : Nat) : Int) .commit) 1 sample_pool =
        some s ∧
      iterate_op (fun s => pmemblk_set_zero s ((1 : Nat) : Int) .commit) 3 sample_pool =
        some s) ∧
    (∃ s, iterate_op (fun s => pmemblk_set_error s ((1 : Nat) : Int) .commit) 1 sample_pool =
        some s ∧
      iterate_op (fun s => pmemblk_set_error s ((1 : Nat) : Int) .commit) 3 sample_pool =
        some s) :=
  set_zero_set_error_idempotent sample_pool 1 3 (by decide) (by decide) (by decide)

/-! ## Mapping a pool -/

/-- C8. Block-size contract on an existing pool: when the persisted `bsize` is not
zero, `pmemblk_map` returns `0` or `-1`, it returns `0` exactly when the caller's
`bsize` is `0` or equals the persisted one, and in both cases it starts no
transaction and leaves the root object and both regions as they were, whatever
`fsize` is. -/
theorem map_existing_pool (bp : Base) (bsize fsize : Nat) (fate : TxFate)
    (h : bp.bsize ≠ 0) :
    ∃ r, pmemblk_map bp bsize fsize fate = some r ∧ r.bp = bp ∧ r.trace = [] ∧
      (r.ret = 0 ∨ r.ret = -1) ∧ (r.ret = 0 ↔ (bsize = 0 ∨ bsize = bp.bsize)) := by
  unfold pmemblk_map
  rw [if_pos h]
  by_cases hc : bsize ≠ 0 ∧ bp.bsize ≠ bsize
  · rw [if_pos hc]
    refine ⟨_, rfl, rfl, rfl, Or.inr rfl, ?_⟩
    constructor
    · intro h0
      have h1 : (-1 : Int) = 0 := h0
      omega
    · rintro (h1 | h1)
      · exact absurd h1 hc.1
      · exact absurd h1.symm hc.2
  · rw [if_neg hc]
    refine ⟨_, rfl, rfl, rfl, Or.inl rfl, ?_⟩
    constructor
    · intro _
      by_cases h0 : bsize = 0
      · exact Or.inl h0
      · right
        by_contra h1
        exact hc ⟨h0, fun h2 => h1 h2.symm⟩
    · intro _; rfl

theorem map_existing_pool_witness :
    ∃ r, pmemblk_map sample_pool 8 1000 .commit = some r ∧ r.bp = sample_pool ∧ r.trace = [] ∧
      (r.ret = 0 ∨ r.ret = -1) ∧ (r.ret = 0 ↔ (8 = 0 ∨ 8 = sample_pool.bsize)) :=
  map_existing_pool sample_pool 8 1000 .commit (by decide)

theorem map_commit_eq {bp : Base} (bsize fsize : Nat) (h0 : bp.bsize = 0) (h1 : 1 ≤ bsize) :
    pmemblk_map bp bsize fsize .commit =
      some ⟨0, new_pool bsize fsize, [Event.tx_begin none, Event.tx_end true]⟩ := by
  have hb : ¬ bsize = 0 := by omega
  unfold pmemblk_map
  rw [if_neg (by rw [h0]; simp)]
  simp only [tx_run, map_body, runSteps, tx_add_root, Option.some_bind, if_neg hb,
    Option.map_some']
  rfl

/-- C9. Capacity planning result: for a new pool (persisted `bsize` zero) and a
requested `bsize ≥ 1`, when the transaction of `pmemblk_map` commits the call returns
`0` and the root object holds the requested `bsize`,
`nblocks = usable_bytes fsize / bsize` (floor), a flags region of exactly `nblocks`
zero bytes, and a data region of `usable_bytes fsize` zero bytes. -/
theorem map_new_pool (bp : Base) (bsize fsize : Nat) (h0 : bp.bsize = 0) (h1 : 1 ≤ bsize) :
    pmemblk_map bp bsize fsize .commit =
      some ⟨0, ⟨List.replicate (usable_bytes fsize) 0,
          List.replicate (usable_bytes fsize / bsize) 0, bsize, usable_bytes fsize / bsize⟩,
        [Event.tx_begin none, Event.tx_end true]⟩ :=
  map_commit_eq bsize fsize h0 h1

theorem map_new_pool_witness :
    pmemblk_map Base.empty 4 20 .commit =
      some ⟨0, ⟨List.replicate (usable_bytes 20) 0,
          List.replicate (usable_bytes 20 / 4) 0, 4, usable_bytes 20 / 4⟩,
        [Event.tx_begin none, Event.tx_end true]⟩ :=
  map_new_pool Base.empty 4 20 (by decide) (by decide)

/-! ## What a call can do to the pool, for any block number -/

theorem read_keeps_pool {bp : Base} {buf : List Nat} {blockno : Int} {r : ReadResult}
    (h : pmemblk_read bp buf blockno = some r) : r.bp = bp := by
  unfold pmemblk_read at h
  split at h
  · cases h; rfl
  · split at h
    · cases h
    · split at h
      · cases h
      · split at h
        · cases h
        · split at h
          · cases h; rfl
          · split at h
            · simp only [Option.map_eq_some'] at h
              obtain ⟨_, _, rfl⟩ := h
              rfl
            · simp only [Option.bind_eq_some, Option.map_eq_some'] at h
              obtain ⟨_, _, _, _, rfl⟩ := h
              rfl

theorem flag_add_range_neg {blockno : Int} (h : blockno < 0) (t : Tx) :
    flag_add_range blockno t = none := by
  have h1 : ¬ (0 ≤ blockno ∧ blockno < (t.bp.flags.length : Int)) := by omega
  simp only [flag_add_range, flag_index, if_neg h1]

theorem Base.Valid.lt_of_guard {bp : Base} (hv : bp.Valid) {blockno : Int}
    (hg : ¬ blockno ≥ toLongLong bp.nblocks) : blockno < (bp.nblocks : Int) := by
  obtain ⟨h1, _, _, h4⟩ := hv
  rw [toLongLong_of_lt (by omega)] at hg
  omega

theorem set_zero_cases {bp : Base} (hv : bp.Valid) {blockno : Int} {fate : TxFate}
    {r : Result} (h : pmemblk_set_zero bp blockno fate = some r) :
    r.bp = bp ∨ (fate = .commit ∧ ∃ b : Nat, blockno = (b : Int) ∧ b < bp.nblocks ∧
      r.bp = set_zero_commit bp b) := by
  by_cases hg : blockno ≥ toLongLong bp.nblocks
  · unfold pmemblk_set_zero at h
    rw [if_pos hg] at h
    cases h; exact Or.inl rfl
  · have hlt := hv.lt_of_guard hg
    by_cases hneg : blockno < 0
    · unfold pmemblk_set_zero at h
      rw [if_neg hg] at h
      unfold locked_tx at h
      cases hl : lock_index blockno with
      | none => rw [hl] at h; cases h
      | some l =>
        rw [hl] at h
        cases fate with
        | commit =>
          simp [tx_run, set_zero_body, runSteps, flag_add_range_neg hneg] at h
        | abortAfter k =>
          cases k with
          | zero =>
            simp [tx_run, runSteps, rollback] at h
            left; rw [← h]
          | succ k =>
            simp [tx_run, set_zero_body, runSteps, flag_add_range_neg hneg] at h
    · lift blockno to Nat using (by omega) with b
      have hb : b < bp.nblocks := by omega
      cases fate with
      | commit =>
        rw [set_zero_commit_eq hv hb] at h
        cases h
        exact Or.inr ⟨rfl, b, rfl, hb, rfl⟩
      | abortAfter k =>
        rw [set_zero_abort_eq hv hb] at h
        cases h; exact Or.inl rfl

theorem set_error_cases {bp : Base} (hv : bp.Valid) {blockno : Int} {fate : TxFate}
    {r : Result} (h : pmemblk_set_error bp blockno fate = some r) :
    r.bp = bp ∨ (fate = .commit ∧ ∃ b : Nat, blockno = (b : Int) ∧ b < bp.nblocks ∧
      r.bp = set_error_commit bp b) := by
  by_cases hg : blockno ≥ toLongLong bp.nblocks
  · unfold pmemblk_set_error at h
    rw [if_pos hg] at h
    cases h; exact Or.inl rfl
  · have hlt := hv.lt_of_guard hg
    by_cases hneg : blockno < 0
    · unfold pmemblk_set_error at h
      rw [if_neg hg] at h
      unfold locked_tx at h
      cases hl : lock_index blockno with
      | none => rw [hl] at h; cases h
      | some l =>
        rw [hl] at h
        cases fate with
        | commit =>
          simp [tx_run, set_error_body, runSteps, flag_add_range_neg hneg] at h
        | abortAfter k =>
          cases k with
          | zero =>
            simp [tx_run, runSteps, rollback] at h
            left; rw [← h]
          | succ k =>
            simp [tx_run, set_error_body, runSteps, flag_add_range_neg hneg] at h
    · lift blockno to Nat using (by omega) with b
      have hb : b < bp.nblocks := by omega
      cases fate with
      | commit =>
        rw [set_error_commit_eq hv hb] at h
        cases h
        exact Or.inr ⟨rfl, b, rfl, hb, rfl⟩
      | abortAfter k =>
        rw [set_error_abort_eq hv hb] at h
        cases h; exact Or.inl rfl

theorem write_tx_early_abort {bp : Base} {buf : List Nat} {blockno : Int} {k : Nat}
    (hk : k ≤ 2) {x : Bool × Base}
    (h : tx_run (write_body buf blockno) (.abortAfter k) bp = some x) : x.2 = bp := by
  by_cases hr : block_off bp blockno + bp.bsize ≤ bp.data.length
  · by_cases hbuf : bp.bsize ≤ buf.length
    · have hlen : (buf.take bp.bsize).length = bp.bsize := by simp; omega
      rcases k with _ | _ | _ | k
      · simp only [tx_run, List.take_zero, runSteps, Option.map_some', rollback] at h
        cases h; rfl
      · simp only [tx_run, write_body, List.take_succ_cons, List.take_zero, runSteps,
          tx_add_range_direct, Base.region, region_read, if_pos hr, Option.map_some',
          Option.some_bind, rollback, Snapshot.restore, Base.setRegion, splice_slice hr] at h
        cases h; rfl
      · simp only [tx_run, write_body, List.take_succ_cons, List.take_zero, runSteps,
          tx_add_range_direct, Base.region, region_read, if_pos hr, Option.map_some',
          Option.some_bind, memcpy_eq hbuf hr, rollback, Snapshot.restore, Base.setRegion,
          restore_data hr hlen] at h
        cases h; rfl
      · omega
    · rcases k with _ | _ | _ | k
      · simp only [tx_run, List.take_zero, runSteps, Option.map_some', rollback] at h
        cases h; rfl
      · simp only [tx_run, write_body, List.take_succ_cons, List.take_zero, runSteps,
          tx_add_range_direct, Base.region, region_read, if_pos hr, Option.map_some',
          Option.some_bind, rollback, Snapshot.restore, Base.setRegion, splice_slice hr] at h
        cases h; rfl
      · simp only [tx_run, write_body, List.take_succ_cons, List.take_zero, runSteps,
          tx_add_range_direct, Base.region, region_read, if_pos hr, Option.map_some',
          Option.some_bind, memcpy, if_neg hbuf, Option.map_none', Option.none_bind] at h
        cases h
      · omega
  · rcases k with _ | k
    · simp only [tx_run, List.take_zero, runSteps, Option.map_some', rollback] at h
      cases h; rfl
    · simp only [tx_run, write_body, List.take_succ_cons, runSteps,
        tx_add_range_direct, Base.region, region_read, if_neg hr, Option.map_none',
        Option.none_bind] at h
      cases h

theorem runSteps_flag_neg {blockno : Int} (hneg : blockno < 0) (s1 s2 : Tx → Option Tx)
    (rest : List (Tx → Option Tx)) (t : Tx) :
    runSteps (s1 :: s2 :: flag_add_range blockno :: rest) t = none := by
  simp only [runSteps]
  cases s1 t with
  | none => rfl
  | some t1 =>
    simp only [Option.some_bind]
    cases s2 t1 with
    | none => rfl
    | some t2 => simp only [Option.some_bind, flag_add_range_neg hneg, Option.none_bind]

theorem write_steps_short_buf {bp : Base} {buf : List Nat} (blockno : Int)
    (hbuf : ¬ bp.bsize ≤ buf.length) (rest : List (Tx → Option Tx)) :
    runSteps ((fun t => tx_add_range_direct .data (block_off t.bp blockno) t.bp.bsize t) ::
      (fun t => (memcpy t.bp.data (block_off t.bp blockno) buf t.bp.bsize).map fun d =>
        { t with bp := { t.bp with data := d } }) :: rest) ⟨bp, []⟩ = none := by
  simp only [runSteps, tx_add_range_direct]
  cases region_read (bp.region .data) (block_off bp blockno) bp.bsize with
  | none => rfl
  | some old =>
    simp only [Option.map_some', Option.some_bind, memcpy, if_neg hbuf, Option.map_none',
      Option.none_bind]

theorem write_cases {bp : Base} (hv : bp.Valid) {buf : List Nat} {blockno : Int}
    {fate : TxFate} {r : Result} (h : pmemblk_write bp buf blockno fate = some r) :
    r.bp = bp ∨ (fate = .commit ∧ ∃ b : Nat, blockno = (b : Int) ∧ b < bp.nblocks ∧
      bp.bsize ≤ buf.length ∧ r.bp = write_commit bp buf b) := by
  by_cases hg : blockno ≥ toLongLong bp.nblocks
  · unfold pmemblk_write at h
    rw [if_pos hg] at h
    cases h; exact Or.inl rfl
  · have hlt := hv.lt_of_guard hg
    have hearly : ∀ k, k ≤ 2 → pmemblk_write bp buf blockno (.abortAfter k) = some r →
        r.bp = bp := by
      intro k hk h
      unfold pmemblk_write at h
      rw [if_neg hg] at h
      unfold locked_tx at h
      cases hl : lock_index blockno with
      | none => rw [hl] at h; cases h
      | some l =>
        rw [hl] at h
        simp only [Option.map_eq_some'] at h
        obtain ⟨x, hx, rfl⟩ := h
        exact write_tx_early_abort hk hx
    by_cases hneg : blockno < 0
    · cases fate with
      | commit =>
        unfold pmemblk_write at h
        rw [if_neg hg] at h
        unfold locked_tx at h
        cases hl : lock_index blockno with
        | none => rw [hl] at h; cases h
        | some l =>
          rw [hl] at h
          simp only [tx_run, write_body, runSteps_flag_neg hneg, Option.map_none'] at h
          cases h
      | abortAfter k =>
        by_cases hk : k ≤ 2
        · exact Or.inl (hearly k hk h)
        · obtain ⟨m, rfl⟩ : ∃ m, k = m + 3 := ⟨k - 3, by omega⟩
          unfold pmemblk_write at h
          rw [if_neg hg] at h
          unfold locked_tx at h
          cases hl : lock_index blockno with
          | none => rw [hl] at h; cases h
          | some l =>
            rw [hl] at h
            simp only [tx_run, write_body, List.take_succ_cons, runSteps_flag_neg hneg,
              Option.map_none'] at h
            cases h
    · lift blockno to Nat using (by omega) with b
      have hb : b < bp.nblocks := by omega
      by_cases hbuf : bp.bsize ≤ buf.length
      · cases fate with
        | commit =>
          rw [write_commit_eq hv hb hbuf] at h
          cases h
          exact Or.inr ⟨rfl, b, rfl, hb, hbuf, rfl⟩
        | abortAfter k =>
          rw [write_abort_eq hv hb hbuf] at h
          cases h; exact Or.inl rfl
      · cases fate with
        | commit =>
          unfold pmemblk_write at h
          rw [if_neg hg] at h
          unfold locked_tx at h
          rw [lock_index_natCast] at h
          simp only [tx_run] at h
          simp only [write_body] at h
          simp only [write_steps_short_buf _ hbuf, Option.map_none'] at h
          cases h
        | abortAfter k =>
          by_cases hk : k ≤ 2
          · exact Or.inl (hearly k hk h)
          · obtain ⟨m, rfl⟩ : ∃ m, k = m + 3 := ⟨k - 3, by omega⟩
            unfold pmemblk_write at h
            rw [if_neg hg] at h
            unfold locked_tx at h
            rw [lock_index_natCast] at h
            simp only [tx_run] at h
            simp only [write_body, List.take_succ_cons] at h
            simp only [write_steps_short_buf _ hbuf, Option.map_none'] at h
            cases h

/-! ## Binary64 rounding: error bounds -/

theorem excessBits_spec (fuel n : Nat) :
    excessBits fuel n = 0 ∨ 2 ^ (52 + excessBits fuel n) ≤ n := by
  induction fuel generalizing n with
  | zero => left; rfl
  | succ fuel ih =>
    unfold excessBits
    split
    · left; rfl
    · next hn =>
      right
      rcases ih (n / 2) with h0 | h1
      · rw [h0]
        have : (2 : Nat) ^ (52 + (0 + 1)) = 2 ^ 53 := by norm_num
        omega
      · have h2 : n / 2 * 2 ≤ n := Nat.div_mul_le_self n 2
        have h3 : 2 ^ (52 + (excessBits fuel (n / 2) + 1)) =
            2 ^ (52 + excessBits fuel (n / 2)) * 2 := by
          rw [← Nat.add_assoc, Nat.pow_succ]
        rw [h3]
        omega

theorem roundNearestEven_zero (n : Nat) : roundNearestEven n 0 = n := by
  simp [roundNearestEven, Nat.mod_one]

theorem roundNearestEven_bounds (n s : Nat) :
    roundNearestEven n (s + 1) ≤ n + 2 ^ s ∧ n ≤ roundNearestEven n (s + 1) + 2 ^ s := by
  have hX : 2 ^ (s + 1) = 2 * 2 ^ s := by rw [Nat.pow_succ, Nat.mul_comm]
  have hdm : 2 ^ (s + 1) * (n / 2 ^ (s + 1)) + n % 2 ^ (s + 1) = n := Nat.div_add_mod n _
  have hm : n / 2 ^ (s + 1) * 2 ^ (s + 1) = 2 ^ (s + 1) * (n / 2 ^ (s + 1)) := Nat.mul_comm _ _
  have hs : (n / 2 ^ (s + 1) + 1) * 2 ^ (s + 1) =
      2 ^ (s + 1) * (n / 2 ^ (s + 1)) + 2 ^ (s + 1) := by ring
  have hlt : n % 2 ^ (s + 1) < 2 ^ (s + 1) := Nat.mod_lt _ (by positivity)
  unfold roundNearestEven
  simp only []
  split
  · next hc =>
    rw [hs]
    rcases hc with hc | ⟨hc, _⟩ <;> constructor <;> omega
  · next hc =>
    rw [hm]
    have h1 : ¬ 2 ^ (s + 1) < 2 * (n % 2 ^ (s + 1)) := fun h => hc (Or.inl h)
    constructor <;> omega

theorem fpRound_bounds (n : Nat) :
    fpRound n ≤ n + n / 2 ^ 53 ∧ n ≤ fpRound n + n / 2 ^ 53 := by
  unfold fpRound
  rcases excessBits_spec 128 n with h0 | h1
  · rw [h0, roundNearestEven_zero]
    constructor <;> omega
  · cases hs : excessBits 128 n with
    | zero => rw [roundNearestEven_zero]; constructor <;> omega
    | succ s =>
      rw [hs] at h1
      have h2 : 2 ^ s ≤ n / 2 ^ 53 := by
        rw [Nat.le_div_iff_mul_le (by positivity)]
        have : 2 ^ (52 + (s + 1)) = 2 ^ s * 2 ^ 53 := by
          rw [← Nat.pow_add]; congr 1; omega
        omega
      have h3 := roundNearestEven_bounds n s
      constructor <;> omega

theorem fpRound_of_lt {n : Nat} (h : n < 2 ^ 53) : fpRound n = n := by
  unfold fpRound
  have : excessBits 128 n = 0 := by
    unfold excessBits
    rw [if_pos h]
  rw [this, roundNearestEven_zero]

theorem USABLE_SIZE_SIG_eq : USABLE_SIZE_SIG = 6305039478318694 := by decide

theorem usable_bytes_lt {fsize : Nat} (h : fsize < 2 ^ 63) : usable_bytes fsize < 2 ^ 63 := by
  unfold usable_bytes
  rw [USABLE_SIZE_SIG_eq]
  have h1 := fpRound_bounds fsize
  have h2 := fpRound_bounds (fpRound fsize * 6305039478318694)
  generalize fpRound (fpRound fsize * 6305039478318694) = r at h2
  generalize fpRound fsize = a at h1 h2
  norm_num at h h1 h2 ⊢
  omega

/-- C10, as the claim states it, fails at `fsize = 90`: the binary64 product
`90 * (7.0 / 10)` is `62.99999999999999`, so the usable byte count is `62`, while
`floor(90 * 7 / 10) = 63`. -/
theorem usable_bytes_90 :
    90 ≤ MAX_POOL_SIZE ∧ usable_bytes 90 = 62 ∧ 90 * 7 / 10 = 63 := by
  decide

/-- C10, amended. For every raw capacity `fsize ≤ MAX_POOL_SIZE`, the usable byte
count `(size_t)(fsize * (7.0 / 10))` is `floor(fsize * 7 / 10)` or one less than it,
and it equals `floor(fsize * 7 / 10)` whenever `fsize` is not a multiple of 10. -/
theorem usable_bytes_near_floor (fsize : Nat) (h : fsize ≤ MAX_POOL_SIZE) :
    usable_bytes fsize ≤ fsize * 7 / 10 ∧ fsize * 7 / 10 ≤ usable_bytes fsize + 1 ∧
      (fsize % 10 ≠ 0 → usable_bytes fsize = fsize * 7 / 10) := by
  have hlt : fsize < 2 ^ 53 := by
    have : MAX_POOL_SIZE < 2 ^ 53 := by decide
    omega
  unfold usable_bytes
  rw [USABLE_SIZE_SIG_eq, fpRound_of_lt hlt]
  have h2 := fpRound_bounds (fsize * 6305039478318694)
  generalize fpRound (fsize * 6305039478318694) = r at h2
  have h3 : fsize ≤ 17179869184 := h
  have h4 : fsize % 10 ≠ 0 → 1 ≤ fsize * 7 % 10 := by omega
  norm_num at h2 h4 ⊢
  refine ⟨by omega, by omega, ?_⟩
  intro h5
  have h6 := h4 h5
  omega

theorem usable_bytes_near_floor_witness :
    usable_bytes POOL_SIZE ≤ POOL_SIZE * 7 / 10 ∧
      POOL_SIZE * 7 / 10 ≤ usable_bytes POOL_SIZE + 1 ∧
      (POOL_SIZE % 10 ≠ 0 → usable_bytes POOL_SIZE = POOL_SIZE * 7 / 10) :=
  usable_bytes_near_floor POOL_SIZE (by decide)

/-! ## Blocks that no committed write or error mark has touched -/

theorem flag_after_set_zero_of_zero : flag_after_set_zero 0 = 0 := by decide

theorem op_run_keeps_unmarked {bp bp' : Base} (hv : bp.Valid) {op : Op}
    (h : op.run bp = some bp') {b : Nat} (hm : op.marks b = false) :
    bp'.Valid ∧ bp'.bsize = bp.bsize ∧ bp'.nblocks = bp.nblocks ∧
      (bp.flags.getD b 0 = 0 → bp'.flags.getD b 0 = 0) := by
  cases op with
  | read buf blockno =>
    simp only [Op.run, Option.map_eq_some'] at h
    obtain ⟨r, hr, rfl⟩ := h
    rw [read_keeps_pool hr]
    exact ⟨hv, rfl, rfl, id⟩
  | write buf blockno fate =>
    simp only [Op.run, Option.map_eq_some'] at h
    obtain ⟨r, hr, rfl⟩ := h
    rcases write_cases hv hr with h1 | ⟨rfl, c, rfl, hc, hbuf, h1⟩
    · rw [h1]; exact ⟨hv, rfl, rfl, id⟩
    · rw [h1]
      have hne : c ≠ b := by
        intro hcb
        simp [Op.marks, hcb] at hm
      refine ⟨write_commit_valid hv hc hbuf, rfl, rfl, ?_⟩
      intro h0
      simp only [write_commit]
      rw [getD_set_ne hne]
      exact h0
  | set_zero blockno fate =>
    simp only [Op.run, Option.map_eq_some'] at h
    obtain ⟨r, hr, rfl⟩ := h
    rcases set_zero_cases hv hr with h1 | ⟨rfl, c, rfl, hc, h1⟩
    · rw [h1]; exact ⟨hv, rfl, rfl, id⟩
    · rw [h1]
      refine ⟨set_zero_commit_valid hv c, rfl, rfl, ?_⟩
      intro h0
      simp only [set_zero_commit]
      by_cases hcb : c = b
      · subst hcb
        rw [getD_set_self (by rw [hv.1]; exact hc), h0, flag_after_set_zero_of_zero]
      · rw [getD_set_ne hcb]
        exact h0
  | set_error blockno fate =>
    simp only [Op.run, Option.map_eq_some'] at h
    obtain ⟨r, hr, rfl⟩ := h
    rcases set_error_cases hv hr with h1 | ⟨rfl, c, rfl, hc, h1⟩
    · rw [h1]; exact ⟨hv, rfl, rfl, id⟩
    · rw [h1]
      have hne : c ≠ b := by
        intro hcb
        simp [Op.marks, hcb] at hm
      refine ⟨set_error_commit_valid hv c, rfl, rfl, ?_⟩
      intro h0
      simp only [set_error_commit]
      rw [getD_set_ne hne]
      exact h0

theorem run_ops_keeps_unmarked {ops : List Op} {bp bp' : Base} (hv : bp.Valid)
    (h : run_ops bp ops = some bp') {b : Nat} (hm : ops.any (Op.marks b) = false) :
    bp'.Valid ∧ bp'.bsize = bp.bsize ∧ bp'.nblocks = bp.nblocks ∧
      (bp.flags.getD b 0 = 0 → bp'.flags.getD b 0 = 0) := by
  induction ops generalizing bp with
  | nil =>
    simp only [run_ops, Option.some.injEq] at h
    subst h
    exact ⟨hv, rfl, rfl, id⟩
  | cons op rest ih =>
    simp only [run_ops, Option.bind_eq_some] at h
    obtain ⟨bp1, h1, h2⟩ := h
    simp only [List.any_cons, Bool.or_eq_false_iff] at hm
    obtain ⟨hv1, hs1, hn1, hf1⟩ := op_run_keeps_unmarked hv h1 hm.1
    obtain ⟨hv2, hs2, hn2, hf2⟩ := ih hv1 h2 hm.2
    exact ⟨hv2, hs2.trans hs1, hn2.trans hn1, fun h0 => hf2 (hf1 h0)⟩

theorem new_pool_valid {bsize fsize : Nat} (hfs : fsize < 2 ^ 63) :
    (new_pool bsize fsize).Valid := by
  have h1 := usable_bytes_lt hfs
  have h2 : usable_bytes fsize / bsize * bsize ≤ usable_bytes fsize := Nat.div_mul_le_self _ _
  have h3 : usable_bytes fsize / bsize ≤ usable_bytes fsize := Nat.div_le_self _ _
  simp only [Base.Valid, new_pool, List.length_replicate, true_and]
  exact ⟨h2, h1, by omega⟩

theorem new_pool_flag (bsize fsize b : Nat) : (new_pool bsize fsize).flags.getD b 0 = 0 := by
  simp only [new_pool, List.getD_eq_getElem?_getD, List.getElem?_replicate]
  split <;> rfl

/-- C2. Fresh pool reads as zero: for a new pool (persisted `bsize` zero), a requested
`bsize > 0` and a file size below `2 ^ 63`, the committed `pmemblk_map` returns `0` and
leaves `new_pool bsize fsize`; and after any sequence `ops` of calls that runs on that
pool, for every block `b < nblocks` that no committed write and no committed error mark
of the sequence addresses (the empty sequence included), `pmemblk_read` of `b` returns
`0` and fills the first `bsize` bytes of the buffer with zeros. -/
theorem fresh_pool_reads_zero (bp0 : Base) (bsize fsize : Nat) (ops : List Op) (bp' : Base)
    (b : Nat) (buf : List Nat) (h0 : bp0.bsize = 0) (h1 : 0 < bsize) (hfs : fsize < 2 ^ 63)
    (hrun : run_ops (new_pool bsize fsize) ops = some bp')
    (hb : b < (new_pool bsize fsize).nblocks) (hm : ops.any (Op.marks b) = false)
    (hbuf : bsize ≤ buf.length) :
    pmemblk_map bp0 bsize fsize .commit =
      some ⟨0, new_pool bsize fsize, [Event.tx_begin none, Event.tx_end true]⟩ ∧
    pmemblk_read bp' buf (b : Int) =
      some ⟨0, bp', List.replicate bsize 0 ++ buf.drop bsize, none, read_trace b⟩ := by
  obtain ⟨hv, hs, hn, hf⟩ := run_ops_keeps_unmarked (new_pool_valid hfs) hrun hm
  have hs' : bp'.bsize = bsize := hs
  have hfl := hf (new_pool_flag bsize fsize b)
  refine ⟨map_commit_eq bsize fsize h0 h1, ?_⟩
  rw [read_eq hv (by rw [hn]; exact hb) (by rw [hs']; exact hbuf), hfl, hs']
  rfl

theorem fresh_pool_reads_zero_witness :
    pmemblk_map Base.empty 4 20 .commit =
      some ⟨0, new_pool 4 20, [Event.tx_begin none, Event.tx_end true]⟩ ∧
    pmemblk_read ⟨[0, 0, 0, 0, 1, 2, 3, 4, 0, 0, 0, 0, 0, 0], [0, 1, 2], 4, 3⟩ [9, 9, 9, 9, 9]
        ((0 : Nat) : Int) =
      some ⟨0, ⟨[0, 0, 0, 0, 1, 2, 3, 4, 0, 0, 0, 0, 0, 0], [0, 1, 2], 4, 3⟩,
        List.replicate 4 0 ++ [9, 9, 9, 9, 9].drop 4, none, read_trace 0⟩ :=
  fresh_pool_reads_zero Base.empty 4 20 sample_ops
    ⟨[0, 0, 0, 0, 1, 2, 3, 4, 0, 0, 0, 0, 0, 0], [0, 1, 2], 4, 3⟩ 0 [9, 9, 9, 9, 9]
    (by decide) (by decide) (by decide) (by decide) (by decide) (by decide) (by decide)

/-! ## Creating, opening and checking a pool -/

theorem map_zero_bsize_eq {bp : Base} (fsize : Nat) (h0 : bp.bsize = 0) :
    pmemblk_map bp 0 fsize .commit = none := by
  unfold pmemblk_map
  rw [if_neg (by rw [h0]; simp)]
  simp only [tx_run, map_body, runSteps, tx_add_root, Option.some_bind, if_pos,
    Option.none_bind, Option.map_none']

/-- C11, as the claim states it, fails: on a new pool `pmemblk_map` with requested
`bsize = 0` has no test of `bsize` and runs into the division `pool_size / bsize` inside
its transaction, so the committing run returns no failure result (it has no defined
result, `none`), neither on its own nor as reached from `pmemblk_create`. -/
theorem zero_block_size_reaches_division :
    pmemblk_map Base.empty 0 POOL_SIZE .commit = none ∧
    pmemblk_create (some Base.empty) 0 POOL_SIZE .commit = none := by
  have h1 : ¬ POOL_SIZE > MAX_POOL_SIZE := by decide
  refine ⟨map_zero_bsize_eq POOL_SIZE rfl, ?_⟩
  unfold pmemblk_create
  rw [if_neg h1]
  simp only [map_zero_bsize_eq POOL_SIZE (rfl : Base.empty.bsize = 0), Option.map_none']

theorem map_abort_eq {bp : Base} (bsize fsize : Nat) (h0 : bp.bsize = 0) (h1 : 1 ≤ bsize)
    (k : Nat) :
    pmemblk_map bp bsize fsize (.abortAfter k) =
      some ⟨-1, bp, [Event.tx_begin none, Event.tx_end false]⟩ := by
  have hb : ¬ bsize = 0 := by omega
  unfold pmemblk_map
  rw [if_neg (by rw [h0]; simp)]
  rcases k with _ | _ | _ | _ | _ | k <;>
    simp only [tx_run, map_body, runSteps, List.take_zero, List.take_succ_cons, List.take_nil,
      tx_add_root, Option.some_bind, if_neg hb, Option.map_some', rollback,
      Snapshot.restore] <;>
    rfl

/-- C11, amended. Zero block size is rejected by the caller, not by the Capacity
Planner: `main` with `blk_size == 0` returns `1` before it calls `pmemblk_create` or
`pmemblk_open` (no engine call is made, so nothing is divided and no descriptor is
persisted), whatever its other arguments are; and on a new pool `pmemblk_map` with a
requested `bsize ≥ 1`, the only kind `main` passes on, returns a result for every
`fsize` and does not divide by zero: `0` with the new descriptor when its transaction
commits, `-1` with the root object as it was when it aborts. -/
theorem main_rejects_zero_block_size (argc : Nat) (argv1 : List Char)
    (created opened : Option Base) (st_size : Option Nat) (fate : TxFate) (bp : Base)
    (bsize fsize k : Nat) (h0 : bp.bsize = 0) (h1 : 1 ≤ bsize) :
    main_start argc argv1 0 created opened st_size fate = some (MainStart.returned 1 []) ∧
    pmemblk_map bp bsize fsize .commit =
      some ⟨0, new_pool bsize fsize, [Event.tx_begin none, Event.tx_end true]⟩ ∧
    pmemblk_map bp bsize fsize (.abortAfter k) =
      some ⟨-1, bp, [Event.tx_begin none, Event.tx_end false]⟩ := by
  refine ⟨?_, map_commit_eq bsize fsize h0 h1, map_abort_eq bsize fsize h0 h1 k⟩
  unfold main_start
  by_cases ha : argc < 4
  · rw [if_pos ha]
  · have hmax : ¬ ¬ (0 : Nat) ≤ BSIZE_MAX := by simp
    rw [if_neg ha, if_neg hmax, if_pos rfl]

theorem main_rejects_zero_block_size_witness :
    main_start 4 ['c'] 0 (some Base.empty) none none .commit =
      some (MainStart.returned 1 []) ∧
    pmemblk_map Base.empty 4 20 .commit =
      some ⟨0, new_pool 4 20, [Event.tx_begin none, Event.tx_end true]⟩ ∧
    pmemblk_map Base.empty 4 20 (.abortAfter 3) =
      some ⟨-1, Base.empty, [Event.tx_begin none, Event.tx_end false]⟩ :=
  main_rejects_zero_block_size 4 ['c'] (some Base.empty) none none .commit Base.empty 4 20 3
    (by decide) (by decide)

theorem create_of_map {root : Base} {bsize poolsize : Nat} {fate : TxFate} {m : Result}
    (hsize : poolsize ≤ MAX_POOL_SIZE) (hm : pmemblk_map root bsize poolsize fate = some m) :
    pmemblk_create (some root) bsize poolsize fate =
      some ⟨if m.ret = 0 then some m.bp else none, none, Event.pool_create :: m.trace⟩ := by
  have h1 : ¬ poolsize > MAX_POOL_SIZE := by omega
  unfold pmemblk_create
  rw [if_neg h1]
  simp only [hm, Option.map_some', handle_of_map, List.singleton_append]
  by_cases h0 : m.ret = 0
  · simp [h0]
  · simp [h0]

/-- C12. Oversized pool request: with `poolsize > MAX_POOL_SIZE`, `pmemblk_create`
returns `NULL` with `errno = EINVAL` and calls nothing of the engine (empty trace); with
`poolsize ≤ MAX_POOL_SIZE` (the maximum included) it calls `pmemobj_create` first and
does not set `EINVAL`; it returns `NULL` when `pmemobj_create` fails; when
`pmemobj_create` succeeds and `pmemblk_map` returns `m`, it returns the pool as its
handle if `m.ret = 0` and `NULL` otherwise; so whenever it returns, its handle is not
`NULL` exactly when `pmemobj_create` succeeded and `pmemblk_map` returned `0`. -/
theorem create_checks_pool_size (created : Option Base) (bsize poolsize : Nat)
    (fate : TxFate) :
    (MAX_POOL_SIZE < poolsize →
      pmemblk_create created bsize poolsize fate = some ⟨none, some Errno.EINVAL, []⟩) ∧
    (poolsize ≤ MAX_POOL_SIZE →
      (created = none →
        pmemblk_create created bsize poolsize fate = some ⟨none, none, [Event.pool_create]⟩) ∧
      (∀ root m, created = some root → pmemblk_map root bsize poolsize fate = some m →
        pmemblk_create created bsize poolsize fate =
          some ⟨if m.ret = 0 then some m.bp else none, none, Event.pool_create :: m.trace⟩) ∧
      ∀ r, pmemblk_create created bsize poolsize fate = some r →
        r.err = none ∧ r.trace.head? = some Event.pool_create ∧
        (r.handle.isSome ↔ ∃ root m, created = some root ∧
          pmemblk_map root bsize poolsize fate = some m ∧ m.ret = 0)) := by
  constructor
  · intro h
    unfold pmemblk_create
    rw [if_pos h]
  · intro h
    refine ⟨?_, ?_, ?_⟩
    · intro hc
      have h1 : ¬ poolsize > MAX_POOL_SIZE := by omega
      unfold pmemblk_create
      rw [if_neg h1, hc]
    · intro root m hc hm
      rw [hc]
      exact create_of_map h hm
    · intro r hr
      have h1 : ¬ poolsize > MAX_POOL_SIZE := by omega
      unfold pmemblk_create at hr
      rw [if_neg h1] at hr
      cases created with
      | none =>
        simp only [Option.some.injEq] at hr
        subst hr
        simp
      | some root =>
        simp only [Option.map_eq_some'] at hr
        obtain ⟨m, hm, rfl⟩ := hr
        refine ⟨rfl, rfl, ?_⟩
        by_cases h0 : m.ret = 0
        · simp [handle_of_map, h0, hm]
        · simp [handle_of_map, h0, hm]

theorem create_checks_pool_size_witness :
    pmemblk_create (some Base.empty) 4096 (MAX_POOL_SIZE + 1) .commit =
      some ⟨none, some Errno.EINVAL, []⟩ ∧
    pmemblk_create none 4096 MAX_POOL_SIZE .commit =
      some ⟨none, none, [Event.pool_create]⟩ ∧
    pmemblk_create (some Base.empty) 4096 MAX_POOL_SIZE .commit =
      some ⟨some (new_pool 4096 MAX_POOL_SIZE), none,
        [Event.pool_create, Event.tx_begin none, Event.tx_end true]⟩ ∧
    pmemblk_create (some Base.empty) 4096 MAX_POOL_SIZE (.abortAfter 2) =
      some ⟨none, none, [Event.pool_create, Event.tx_begin none, Event.tx_end false]⟩ ∧
    pmemblk_create (some sample_pool) 4096 MAX_POOL_SIZE .commit =
      some ⟨none, none, [Event.pool_create]⟩ := by
  have h1 := (create_checks_pool_size (some Base.empty) 4096 (MAX_POOL_SIZE + 1) .commit).1
    (by decide)
  have h2 := ((create_checks_pool_size none 4096 MAX_POOL_SIZE .commit).2 (by decide)).1 rfl
  have h3 := ((create_checks_pool_size (some Base.empty) 4096 MAX_POOL_SIZE .commit).2
    (by decide)).2.1 Base.empty _ rfl (map_commit_eq 4096 MAX_POOL_SIZE rfl (by decide))
  have h4 := ((create_checks_pool_size (some Base.empty) 4096 MAX_POOL_SIZE
    (.abortAfter 2)).2 (by decide)).2.1 Base.empty _ rfl
    (map_abort_eq 4096 MAX_POOL_SIZE rfl (by decide) 2)
  have h5 := ((create_checks_pool_size (some sample_pool) 4096 MAX_POOL_SIZE .commit).2
    (by decide)).2.1 sample_pool ⟨-1, sample_pool, []⟩ rfl (by decide)
  exact ⟨h1, h2, by simpa using h3, by simpa using h4, by simpa using h5⟩

theorem check_nonzero_eq (ret : Int) (opened : Option Base) (st_size : Option Nat)
    (bsize : Nat) (fate : TxFate) (h : ret ≠ 0) :
    pmemblk_check ret opened st_size bsize fate = some (ret, [Event.pool_check]) := by
  unfold pmemblk_check
  rw [if_pos h]

/-- C13. The code does not validate the block size of a consistent pool: whenever
`pmemobj_check` returns a nonzero value `ret` (`1` for a consistent pool),
`pmemblk_check` returns `ret` at once, with `pmemobj_check` its only engine call -
no open, no close - whatever the persisted and the supplied block sizes are. -/
theorem check_returns_before_open (ret : Int) (opened : Option Base) (st_size : Option Nat)
    (bsize : Nat) (fate : TxFate) (h : ret ≠ 0) :
    pmemblk_check ret opened st_size bsize fate = some (ret, [Event.pool_check]) :=
  check_nonzero_eq ret opened st_size bsize fate h

theorem check_returns_before_open_witness :
    pmemblk_check 1 (some sample_pool) (some 1000) 8 .commit =
      some (1, [Event.pool_check]) :=
  check_returns_before_open 1 (some sample_pool) (some 1000) 8 .commit (by decide)

/-- C14, as the claim states it, fails at `fsize = 20`, `bsize = 4`: the committed
`pmemblk_map` leaves 3 blocks and a data region of `usable_bytes 20 = 14` bytes, not
`3 * 4 = 12`. -/
theorem data_region_14_bytes :
    pmemblk_map Base.empty 4 20 .commit =
      some ⟨0, ⟨List.replicate 14 0, [0, 0, 0], 4, 3⟩,
        [Event.tx_begin none, Event.tx_end true]⟩ ∧
    (List.replicate 14 (0 : Nat)).length = 14 ∧ 3 * 4 = 12 := by
  decide

/-- C14, amended. Data region size: for every new pool initialised by a committed
`pmemblk_map` with `bsize ≥ 1` and raw capacity `fsize`, the data region that is
allocated has exactly `usable_bytes fsize` bytes, which is at least `nblocks * bsize` and
less than `(nblocks + 1) * bsize`: it holds every block, followed by the
`usable_bytes fsize % bsize` bytes that do not make up a block. -/
theorem data_region_size (bp : Base) (bsize fsize : Nat) (h0 : bp.bsize = 0)
    (h1 : 1 ≤ bsize) :
    ∃ r, pmemblk_map bp bsize fsize .commit = some r ∧ r.ret = 0 ∧
      r.bp.data.length = usable_bytes fsize ∧
      r.bp.nblocks * r.bp.bsize ≤ r.bp.data.length ∧
      r.bp.data.length < (r.bp.nblocks + 1) * r.bp.bsize ∧
      r.bp.data.length = r.bp.nblocks * r.bp.bsize + usable_bytes fsize % bsize := by
  refine ⟨_, map_commit_eq bsize fsize h0 h1, rfl, ?_⟩
  have h2 : bsize * (usable_bytes fsize / bsize) + usable_bytes fsize % bsize =
      usable_bytes fsize := Nat.div_add_mod _ _
  have h3 : usable_bytes fsize % bsize < bsize := Nat.mod_lt _ (by omega)
  have h4 : usable_bytes fsize / bsize * bsize = bsize * (usable_bytes fsize / bsize) :=
    Nat.mul_comm _ _
  have h5 : (usable_bytes fsize / bsize + 1) * bsize =
      bsize * (usable_bytes fsize / bsize) + bsize := by ring
  simp only [new_pool, List.length_replicate, h4, h5]
  refine ⟨trivial, ?_, ?_, ?_⟩ <;> omega

theorem data_region_size_witness :
    ∃ r, pmemblk_map Base.empty 4 20 .commit = some r ∧ r.ret = 0 ∧
      r.bp.data.length = usable_bytes 20 ∧
      r.bp.nblocks * r.bp.bsize ≤ r.bp.data.length ∧
      r.bp.data.length < (r.bp.nblocks + 1) * r.bp.bsize ∧
      r.bp.data.length = r.bp.nblocks * r.bp.bsize + usable_bytes 20 % 4 :=
  data_region_size Base.empty 4 20 (by decide) (by decide)

/-! ## The root object and the region sizes never change -/

theorem write_commit_data_length {bp : Base} (hv : bp.Valid) {b : Nat} (hb : b < bp.nblocks)
    {buf : List Nat} (hbuf : bp.bsize ≤ buf.length) :
    (write_commit bp buf b).data.length = bp.data.length := by
  obtain ⟨_, hr⟩ := hv.block_off hb
  have hlen : (buf.take bp.bsize).length = bp.bsize := by simp; omega
  exact splice_length (by omega)

theorem op_run_keeps_layout {bp bp' : Base} (hv : bp.Valid) {op : Op}
    (h : op.run bp = some bp') :
    bp'.Valid ∧ bp'.bsize = bp.bsize ∧ bp'.nblocks = bp.nblocks ∧
      bp'.data.length = bp.data.length ∧ bp'.flags.length = bp.flags.length := by
  cases op with
  | read buf blockno =>
    simp only [Op.run, Option.map_eq_some'] at h
    obtain ⟨r, hr, rfl⟩ := h
    rw [read_keeps_pool hr]
    exact ⟨hv, rfl, rfl, rfl, rfl⟩
  | write buf blockno fate =>
    simp only [Op.run, Option.map_eq_some'] at h
    obtain ⟨r, hr, rfl⟩ := h
    rcases write_cases hv hr with h1 | ⟨_, c, _, hc, hbuf, h1⟩
    · rw [h1]; exact ⟨hv, rfl, rfl, rfl, rfl⟩
    · rw [h1]
      exact ⟨write_commit_valid hv hc hbuf, rfl, rfl, write_commit_data_length hv hc hbuf,
        List.length_set _ _ _⟩
  | set_zero blockno fate =>
    simp only [Op.run, Option.map_eq_some'] at h
    obtain ⟨r, hr, rfl⟩ := h
    rcases set_zero_cases hv hr with h1 | ⟨_, c, _, hc, h1⟩
    · rw [h1]; exact ⟨hv, rfl, rfl, rfl, rfl⟩
    · rw [h1]
      exact ⟨set_zero_commit_valid hv c, rfl, rfl, rfl, List.length_set _ _ _⟩
  | set_error blockno fate =>
    simp only [Op.run, Option.map_eq_some'] at h
    obtain ⟨r, hr, rfl⟩ := h
    rcases set_error_cases hv hr with h1 | ⟨_, c, _, hc, h1⟩
    · rw [h1]; exact ⟨hv, rfl, rfl, rfl, rfl⟩
    · rw [h1]
      exact ⟨set_error_commit_valid hv c, rfl, rfl, rfl, List.length_set _ _ _⟩

theorem run_ops_keeps_layout {ops : List Op} {bp bp' : Base} (hv : bp.Valid)
    (h : run_ops bp ops = some bp') :
    bp'.Valid ∧ bp'.bsize = bp.bsize ∧ bp'.nblocks = bp.nblocks ∧
      bp'.data.length = bp.data.length ∧ bp'.flags.length = bp.flags.length := by
  induction ops generalizing bp with
  | nil =>
    simp only [run_ops, Option.some.injEq] at h
    subst h
    exact ⟨hv, rfl, rfl, rfl, rfl⟩
  | cons op rest ih =>
    simp only [run_ops, Option.bind_eq_some] at h
    obtain ⟨bp1, h1, h2⟩ := h
    obtain ⟨hv1, hs1, hn1, hd1, hf1⟩ := op_run_keeps_layout hv h1
    obtain ⟨hv2, hs2, hn2, hd2, hf2⟩ := ih hv1 h2
    exact ⟨hv2, hs2.trans hs1, hn2.trans hn1, hd2.trans hd1, hf2.trans hf1⟩

theorem read_isSome {bp : Base} (hv : bp.Valid) {buf : List Nat} {blockno : Int}
    (h0 : 0 ≤ blockno) (hbuf : bp.bsize ≤ buf.length) :
    ∃ r, pmemblk_read bp buf blockno = some r := by
  by_cases hg : blockno ≥ toLongLong bp.nblocks
  · unfold pmemblk_read
    rw [if_pos hg]
    exact ⟨_, rfl⟩
  · have hlt := hv.lt_of_guard hg
    lift blockno to Nat using h0 with b
    exact ⟨_, read_eq hv (by omega) hbuf⟩

theorem op_run_isSome {bp : Base} (hv : bp.Valid) {op : Op}
    (hw : op.wellFormed bp.bsize = true) : ∃ bp', op.run bp = some bp' := by
  cases op with
  | read buf blockno =>
    simp only [Op.wellFormed, Bool.and_eq_true, decide_eq_true_eq] at hw
    obtain ⟨r, hr⟩ := read_isSome hv hw.1 hw.2
    exact ⟨r.bp, by simp only [Op.run, hr, Option.map_some']⟩
  | write buf blockno fate =>
    simp only [Op.wellFormed, Bool.and_eq_true, decide_eq_true_eq] at hw
    obtain ⟨h0, hbuf⟩ := hw
    by_cases hg : blockno ≥ toLongLong bp.nblocks
    · refine ⟨bp, ?_⟩
      simp only [Op.run, pmemblk_write, if_pos hg, Option.map_some']
    · have hlt := hv.lt_of_guard hg
      lift blockno to Nat using h0 with b
      have hb : b < bp.nblocks := by omega
      cases fate with
      | commit =>
        exact ⟨write_commit bp buf b,
          by simp only [Op.run, write_commit_eq hv hb hbuf, Option.map_some']⟩
      | abortAfter k =>
        exact ⟨bp, by simp only [Op.run, write_abort_eq hv hb hbuf, Option.map_some']⟩
  | set_zero blockno fate =>
    simp only [Op.wellFormed, decide_eq_true_eq] at hw
    by_cases hg : blockno ≥ toLongLong bp.nblocks
    · refine ⟨bp, ?_⟩
      simp only [Op.run, pmemblk_set_zero, if_pos hg, Option.map_some']
    · have hlt := hv.lt_of_guard hg
      lift blockno to Nat using hw with b
      have hb : b < bp.nblocks := by omega
      cases fate with
      | commit =>
        exact ⟨set_zero_commit bp b,
          by simp only [Op.run, set_zero_commit_eq hv hb, Option.map_some']⟩
      | abortAfter k =>
        exact ⟨bp, by simp only [Op.run, set_zero_abort_eq hv hb, Option.map_some']⟩
  | set_error blockno fate =>
    simp only [Op.wellFormed, decide_eq_true_eq] at hw
    by_cases hg : blockno ≥ toLongLong bp.nblocks
    · refine ⟨bp, ?_⟩
      simp only [Op.run, pmemblk_set_error, if_pos hg, Option.map_some']
    · have hlt := hv.lt_of_guard hg
      lift blockno to Nat using hw with b
      have hb : b < bp.nblocks := by omega
      cases fate with
      | commit =>
        exact ⟨set_error_commit bp b,
          by simp only [Op.run, set_error_commit_eq hv hb, Option.map_some']⟩
      | abortAfter k =>
        exact ⟨bp, by simp only [Op.run, set_error_abort_eq hv hb, Option.map_some']⟩

theorem run_ops_isSome {ops : List Op} {bp : Base} (hv : bp.Valid)
    (hw : ops.all (Op.wellFormed bp.bsize) = true) : ∃ bp', run_ops bp ops = some bp' := by
  induction ops generalizing bp with
  | nil => exact ⟨bp, rfl⟩
  | cons op rest ih =>
    simp only [List.all_cons, Bool.and_eq_true] at hw
    obtain ⟨bp1, h1⟩ := op_run_isSome hv hw.1
    obtain ⟨hv1, hs1, _⟩ := op_run_keeps_layout hv h1
    obtain ⟨bp2, h2⟩ := ih hv1 (by rw [hs1]; exact hw.2)
    exact ⟨bp2, by simp only [run_ops, h1, Option.some_bind, h2]⟩

/-! ## Reads -/

/-- C15. Read is a function of the block's own flag byte and data: for two pools with
the block layout, the same `bsize` and `nblocks`, a block `i < nblocks` and the same
caller buffer, if the flag byte of `i` is the same in both and, when it has WRITTEN set
and ERROR clear, the `bsize` data bytes at offset `i * bsize` are the same, then
`pmemblk_read` of `i` returns in both, with the same return value, buffer, `errno` and
events; and no `pmemblk_read` that returns, for any block number, changes the pool. -/
theorem read_depends_on_own_block (bp1 bp2 : Base) (i : Nat) (buf : List Nat)
    (hv1 : bp1.Valid) (hv2 : bp2.Valid) (hbs : bp1.bsize = bp2.bsize)
    (hnb : bp1.nblocks = bp2.nblocks) (hi : i < bp1.nblocks) (hbuf : bp1.bsize ≤ buf.length)
    (hflag : bp1.flags.getD i 0 = bp2.flags.getD i 0)
    (hdata : bp1.flags.getD i 0 &&& ZERO_MASK ≠ 0 → bp1.flags.getD i 0 &&& ERROR_MASK = 0 →
      slice bp1.data (i * bp1.bsize) bp1.bsize = slice bp2.data (i * bp2.bsize) bp2.bsize) :
    (∃ r1 r2, pmemblk_read bp1 buf (i : Int) = some r1 ∧
      pmemblk_read bp2 buf (i : Int) = some r2 ∧
      r1.observed = r2.observed ∧ r1.trace = r2.trace) ∧
    (∀ (blockno : Int) (r : ReadResult), pmemblk_read bp1 buf blockno = some r → r.bp = bp1) := by
  refine ⟨⟨_, _, read_eq hv1 hi hbuf, read_eq hv2 (by rw [← hnb]; exact hi)
    (by rw [← hbs]; exact hbuf), ?_⟩, fun _ _ h => read_keeps_pool h⟩
  rw [← hflag, ← hbs]
  by_cases he : bp1.flags.getD i 0 &&& ERROR_MASK ≠ 0
  · simp only [if_pos he, ReadResult.observed, and_self]
  · by_cases hz : bp1.flags.getD i 0 &&& ZERO_MASK = 0
    · simp only [if_neg he, if_pos hz, ReadResult.observed, and_self]
    · have hd := hdata hz (by simpa using he)
      rw [← hbs] at hd
      simp only [if_neg he, if_neg hz, ReadResult.observed, hd, and_self]

theorem read_depends_on_own_block_witness :
    (∃ r1 r2, pmemblk_read sample_pool [9, 9, 9, 9] ((1 : Nat) : Int) = some r1 ∧
      pmemblk_read ⟨[5, 5, 5, 5, 65, 66, 67, 68, 1, 1, 1, 1], [3, 1, 0], 4, 3⟩ [9, 9, 9, 9]
        ((1 : Nat) : Int) = some r2 ∧
      r1.observed = r2.observed ∧ r1.trace = r2.trace) ∧
    (∀ (blockno : Int) (r : ReadResult),
      pmemblk_read sample_pool [9, 9, 9, 9] blockno = some r → r.bp = sample_pool) :=
  read_depends_on_own_block sample_pool
    ⟨[5, 5, 5, 5, 65, 66, 67, 68, 1, 1, 1, 1], [3, 1, 0], 4, 3⟩ 1 [9, 9, 9, 9]
    (by decide) (by decide) (by decide) (by decide) (by decide) (by decide) (by decide)
    (by decide)

/-! ## The flag transition table -/

set_option maxRecDepth 100000 in
theorem flag_table_values : ∀ f < 256,
    flag_after_write f = (f &&& (255 - ERROR_MASK)) ||| ZERO_MASK ∧
    flag_after_set_zero f = f &&& (255 - ZERO_MASK) ∧
    flag_after_set_error f = f ||| ERROR_MASK := by
  decide

set_option maxRecDepth 100000 in
theorem flag_table_low_bits : ∀ f < 256, ∀ i < 8, 2 ≤ i →
    (flag_after_write f).testBit i = f.testBit i ∧
    (flag_after_set_zero f).testBit i = f.testBit i ∧
    (flag_after_set_error f).testBit i = f.testBit i := by
  decide

set_option maxRecDepth 100000 in
theorem flag_table_kept_bit : ∀ f < 256,
    (flag_after_set_zero f).testBit 1 = f.testBit 1 ∧
    (flag_after_set_error f).testBit 0 = f.testBit 0 := by
  decide

theorem testBit_of_byte {x i : Nat} (hx : x < 256) (hi : 8 ≤ i) : x.testBit i = false := by
  apply Nat.testBit_lt_two_pow
  have : (2 : Nat) ^ 8 ≤ 2 ^ i := Nat.pow_le_pow_right (by decide) hi
  omega

theorem flag_table_other_bits {f : Nat} (hf : f < 256) {i : Nat} (hi : 2 ≤ i) :
    (flag_after_write f).testBit i = f.testBit i ∧
    (flag_after_set_zero f).testBit i = f.testBit i ∧
    (flag_after_set_error f).testBit i = f.testBit i := by
  by_cases h8 : i < 8
  · exact flag_table_low_bits f hf i h8 hi
  · have hw : flag_after_write f < 256 := Nat.mod_lt _ (by decide)
    have hz : flag_after_set_zero f < 256 := Nat.mod_lt _ (by decide)
    have he : flag_after_set_error f < 256 := Nat.mod_lt _ (by decide)
    rw [testBit_of_byte hw (by omega), testBit_of_byte hz (by omega),
      testBit_of_byte he (by omega), testBit_of_byte hf (by omega)]
    exact ⟨rfl, rfl, rfl⟩

/-- C17. Flag transition table: on a pool with the block layout, for `b < nblocks`
whose flag byte is `f < 256`, a committed `pmemblk_write` leaves the flag byte
`(f AND NOT ERROR_MASK) OR ZERO_MASK`, a committed `pmemblk_set_zero` leaves
`f AND NOT ZERO_MASK` with the ERROR bit as it was, and a committed `pmemblk_set_error`
leaves `f OR ERROR_MASK` with the WRITTEN bit as it was (`NOT` taken on the eight bits
of the byte); in all three every bit other than bits 0 and 1 is as it was, and
`pmemblk_set_zero` and `pmemblk_set_error` leave the data region as it was. -/
theorem flag_transition_table (bp : Base) (b : Nat) (buf : List Nat) (hv : bp.Valid)
    (hb : b < bp.nblocks) (hbuf : bp.bsize ≤ buf.length) (hf : bp.flags.getD b 0 < 256) :
    ∃ rw rz re, pmemblk_write bp buf (b : Int) .commit = some rw ∧
      pmemblk_set_zero bp (b : Int) .commit = some rz ∧
      pmemblk_set_error bp (b : Int) .commit = some re ∧
      rw.bp.flags.getD b 0 = (bp.flags.getD b 0 &&& (255 - ERROR_MASK)) ||| ZERO_MASK ∧
      rz.bp.flags.getD b 0 = bp.flags.getD b 0 &&& (255 - ZERO_MASK) ∧
      re.bp.flags.getD b 0 = bp.flags.getD b 0 ||| ERROR_MASK ∧
      (rz.bp.flags.getD b 0).testBit 1 = (bp.flags.getD b 0).testBit 1 ∧
      (re.bp.flags.getD b 0).testBit 0 = (bp.flags.getD b 0).testBit 0 ∧
      (∀ i, 2 ≤ i →
        (rw.bp.flags.getD b 0).testBit i = (bp.flags.getD b 0).testBit i ∧
        (rz.bp.flags.getD b 0).testBit i = (bp.flags.getD b 0).testBit i ∧
        (re.bp.flags.getD b 0).testBit i = (bp.flags.getD b 0).testBit i) ∧
      rz.bp.data = bp.data ∧ re.bp.data = bp.data := by
  have hfl : b < bp.flags.length := by rw [hv.1]; exact hb
  have h1 : (write_commit bp buf b).flags.getD b 0 = flag_after_write (bp.flags.getD b 0) :=
    getD_set_self hfl _
  have h2 : (set_zero_commit bp b).flags.getD b 0 =
      flag_after_set_zero (bp.flags.getD b 0) := getD_set_self hfl _
  have h3 : (set_error_commit bp b).flags.getD b 0 =
      flag_after_set_error (bp.flags.getD b 0) := getD_set_self hfl _
  obtain ⟨t1, t2, t3⟩ := flag_table_values _ hf
  obtain ⟨k1, k2⟩ := flag_table_kept_bit _ hf
  refine ⟨_, _, _, write_commit_eq hv hb hbuf, set_zero_commit_eq hv hb,
    set_error_commit_eq hv hb, ?_, ?_, ?_, ?_, ?_, ?_, rfl, rfl⟩
  · rw [h1, t1]
  · rw [h2, t2]
  · rw [h3, t3]
  · rw [h2, k1]
  · rw [h3, k2]
  · intro i hi
    rw [h1, h2, h3]
    exact flag_table_other_bits hf hi

theorem flag_transition_table_witness :
    ∃ rw rz re, pmemblk_write sample_pool [1, 2, 3, 4] ((2 : Nat) : Int) .commit = some rw ∧
      pmemblk_set_zero sample_pool ((2 : Nat) : Int) .commit = some rz ∧
      pmemblk_set_error sample_pool ((2 : Nat) : Int) .commit = some re ∧
      rw.bp.flags.getD 2 0 = (sample_pool.flags.getD 2 0 &&& (255 - ERROR_MASK)) ||| ZERO_MASK ∧
      rz.bp.flags.getD 2 0 = sample_pool.flags.getD 2 0 &&& (255 - ZERO_MASK) ∧
      re.bp.flags.getD 2 0 = sample_pool.flags.getD 2 0 ||| ERROR_MASK ∧
      (rz.bp.flags.getD 2 0).testBit 1 = (sample_pool.flags.getD 2 0).testBit 1 ∧
      (re.bp.flags.getD 2 0).testBit 0 = (sample_pool.flags.getD 2 0).testBit 0 ∧
      (∀ i, 2 ≤ i →
        (rw.bp.flags.getD 2 0).testBit i = (sample_pool.flags.getD 2 0).testBit i ∧
        (rz.bp.flags.getD 2 0).testBit i = (sample_pool.flags.getD 2 0).testBit i ∧
        (re.bp.flags.getD 2 0).testBit i = (sample_pool.flags.getD 2 0).testBit i) ∧
      rz.bp.data = sample_pool.data ∧ re.bp.data = sample_pool.data :=
  flag_transition_table sample_pool 2 [1, 2, 3, 4] (by decide) (by decide) (by decide)
    (by decide)

/-! ## Other blocks are left alone -/

theorem slice_splice_before {mem : List Nat} {off : Nat} {src : List Nat} {off' n : Nat}
    (h : off' + n ≤ off) (hoff : off ≤ mem.length) :
    slice (splice mem off src) off' n = slice mem off' n := by
  have h1 : (mem.take off).length = off := by simp; omega
  simp only [slice, splice, List.append_assoc, List.take_drop]
  rw [List.take_append_of_le_length (by omega), List.take_take, Nat.min_eq_left (by omega)]

theorem slice_splice_after {mem : List Nat} {off : Nat} {src : List Nat} {off' : Nat}
    (n : Nat) (h : off + src.length ≤ off') (hb : off + src.length ≤ mem.length) :
    slice (splice mem off src) off' n = slice mem off' n := by
  have h1 : (mem.take off ++ src).length = off + src.length := by simp; omega
  obtain ⟨i, rfl⟩ : ∃ i, off' = (mem.take off ++ src).length + i :=
    ⟨off' - (off + src.length), by omega⟩
  simp only [slice, splice]
  rw [List.drop_append, List.drop_drop, h1]

theorem slice_splice_other_block {mem : List Nat} {n b c : Nat} {src : List Nat}
    (hsrc : src.length = n) (hne : b ≠ c) (hb : b * n + n ≤ mem.length) :
    slice (splice mem (b * n) src) (c * n) n = slice mem (c * n) n := by
  rcases Nat.lt_or_gt_of_ne hne with hlt | hgt
  · have h1 : (b + 1) * n ≤ c * n := Nat.mul_le_mul_right _ hlt
    rw [Nat.add_mul, Nat.one_mul] at h1
    exact slice_splice_after n (by omega) (by omega)
  · have h1 : (c + 1) * n ≤ b * n := Nat.mul_le_mul_right _ hgt
    rw [Nat.add_mul, Nat.one_mul] at h1
    exact slice_splice_before (by omega) (by omega)

theorem same_block_of_eq {bp bp' : Base} (hv : bp.Valid) (hv' : bp'.Valid)
    (hbs : bp'.bsize = bp.bsize) (hnb : bp'.nblocks = bp.nblocks) {c : Nat}
    (hc : c < bp.nblocks) {rbuf : List Nat} (hrbuf : bp.bsize ≤ rbuf.length)
    (hflag : bp'.flags.getD c 0 = bp.flags.getD c 0)
    (hdata : slice bp'.data (c * bp.bsize) bp.bsize = slice bp.data (c * bp.bsize) bp.bsize) :
    same_block bp bp' c rbuf := by
  refine ⟨hflag, hdata, _, _, read_eq hv hc hrbuf,
    read_eq hv' (by rw [hnb]; exact hc) (by rw [hbs]; exact hrbuf), ?_⟩
  rw [hflag, hbs, hdata]
  by_cases he : bp.flags.getD c 0 &&& ERROR_MASK ≠ 0
  · simp only [if_pos he, and_self]
  · by_cases hz : bp.flags.getD c 0 &&& ZERO_MASK = 0
    · simp only [if_neg he, if_pos hz, and_self]
    · simp only [if_neg he, if_neg hz, and_self]

theorem same_block_refl {bp : Base} (hv : bp.Valid) {c : Nat} (hc : c < bp.nblocks)
    {rbuf : List Nat} (hrbuf : bp.bsize ≤ rbuf.length) : same_block bp bp c rbuf :=
  same_block_of_eq hv hv rfl rfl hc hrbuf rfl rfl

/-- C18. Per-block frame: on a pool with the block layout, for distinct blocks
`b, c < nblocks` (whether or not `b % 256 = c % 256`) and any fate of the transaction,
each of `pmemblk_write` of `data` to `b`, `pmemblk_set_zero` of `b` and
`pmemblk_set_error` of `b` returns and leaves the flag byte of `c` and the `bsize` data
bytes of `c` as they were, and `pmemblk_read` of `c` returns the same return value,
buffer and `errno` after the call as before it. -/
theorem other_blocks_unchanged (bp : Base) (b c : Nat) (data rbuf : List Nat) (fate : TxFate)
    (hv : bp.Valid) (hb : b < bp.nblocks) (hc : c < bp.nblocks) (hne : b ≠ c)
    (hdata : bp.bsize ≤ data.length) (hrbuf : bp.bsize ≤ rbuf.length) :
    (∃ r, pmemblk_write bp data (b : Int) fate = some r ∧ same_block bp r.bp c rbuf) ∧
    (∃ r, pmemblk_set_zero bp (b : Int) fate = some r ∧ same_block bp r.bp c rbuf) ∧
    (∃ r, pmemblk_set_error bp (b : Int) fate = some r ∧ same_block bp r.bp c rbuf) := by
  obtain ⟨_, hr⟩ := hv.block_off hb
  have hlen : (data.take bp.bsize).length = bp.bsize := by simp; omega
  cases fate with
  | commit =>
    refine ⟨⟨_, write_commit_eq hv hb hdata, ?_⟩, ⟨_, set_zero_commit_eq hv hb, ?_⟩,
      ⟨_, set_error_commit_eq hv hb, ?_⟩⟩
    · exact same_block_of_eq hv (write_commit_valid hv hb hdata) rfl rfl hc hrbuf
        (getD_set_ne hne _) (slice_splice_other_block hlen hne hr)
    · exact same_block_of_eq hv (set_zero_commit_valid hv b) rfl rfl hc hrbuf
        (getD_set_ne hne _) rfl
    · exact same_block_of_eq hv (set_error_commit_valid hv b) rfl rfl hc hrbuf
        (getD_set_ne hne _) rfl
  | abortAfter k =>
    exact ⟨⟨_, write_abort_eq hv hb hdata k, same_block_refl hv hc hrbuf⟩,
      ⟨_, set_zero_abort_eq hv hb k, same_block_refl hv hc hrbuf⟩,
      ⟨_, set_error_abort_eq hv hb k, same_block_refl hv hc hrbuf⟩⟩

theorem other_blocks_unchanged_witness :
    (∃ r, pmemblk_write sample_pool [1, 2, 3, 4] ((0 : Nat) : Int) .commit = some r ∧
      same_block sample_pool r.bp 1 [9, 9, 9, 9]) ∧
    (∃ r, pmemblk_set_zero sample_pool ((0 : Nat) : Int) .commit = some r ∧
      same_block sample_pool r.bp 1 [9, 9, 9, 9]) ∧
    (∃ r, pmemblk_set_error sample_pool ((0 : Nat) : Int) .commit = some r ∧
      same_block sample_pool r.bp 1 [9, 9, 9, 9]) :=
  other_blocks_unchanged sample_pool 0 1 [1, 2, 3, 4] [9, 9, 9, 9] .commit
    (by decide) (by decide) (by decide) (by decide) (by decide) (by decide)

/-! ## Bounds of the accesses -/

/-- C19. Block accesses stay in bounds: for a new pool initialised by a committed
`pmemblk_map` with `bsize ≥ 1` and `fsize ≤ MAX_POOL_SIZE`, in the pool `bp'` that any
sequence of calls that runs leaves (the empty sequence included), for every
`b < nblocks`: the product `b * bsize` does not wrap in `size_t`, the byte range
`[b * bsize, b * bsize + bsize)` lies inside the data region, the flag index `b` lies
inside the flags region, the lock index is `b % 256 < MAX_THREADS`, and `pmemblk_read`
and `pmemblk_write` of `b` (with buffers of at least `bsize` bytes, any fate) return a
result: the out-of-bounds branch is not reached. -/
theorem block_accesses_in_bounds (bp0 : Base) (bsize fsize : Nat) (ops : List Op) (bp' : Base)
    (b : Nat) (buf : List Nat) (fate : TxFate) (h0 : bp0.bsize = 0) (h1 : 1 ≤ bsize)
    (hfs : fsize ≤ MAX_POOL_SIZE)
    (hrun : run_ops (new_pool bsize fsize) ops = some bp') (hb : b < bp'.nblocks)
    (hbuf : bsize ≤ buf.length) :
    pmemblk_map bp0 bsize fsize .commit =
      some ⟨0, new_pool bsize fsize, [Event.tx_begin none, Event.tx_end true]⟩ ∧
    toSizeT (b : Int) * bp'.bsize < 2 ^ 64 ∧
    block_off bp' (b : Int) = b * bp'.bsize ∧
    b * bp'.bsize + bp'.bsize ≤ bp'.data.length ∧
    flag_index bp' (b : Int) = some b ∧ b < bp'.flags.length ∧
    lock_index (b : Int) = some (b % 256) ∧ b % 256 < MAX_THREADS ∧
    (∃ r, pmemblk_read bp' buf (b : Int) = some r) ∧
    (∃ r, pmemblk_write bp' buf (b : Int) fate = some r) := by
  have hlt : fsize < 2 ^ 63 := by
    have : MAX_POOL_SIZE < 2 ^ 63 := by decide
    omega
  obtain ⟨hv, hs, _, _, _⟩ := run_ops_keeps_layout (new_pool_valid hlt) hrun
  have hs' : bp'.bsize = bsize := hs
  have hbuf' : bp'.bsize ≤ buf.length := by rw [hs']; exact hbuf
  have hfl : b < bp'.flags.length := by rw [hv.1]; exact hb
  obtain ⟨ho, hr⟩ := hv.block_off hb
  have hb64 : b < 2 ^ 64 := by
    have := hv.2.2.2
    omega
  have hmod : b % 256 < MAX_THREADS := Nat.mod_lt _ (by decide)
  refine ⟨map_commit_eq bsize fsize h0 h1, ?_, ho, hr, flag_index_natCast hfl, hfl,
    lock_index_natCast b, hmod, ⟨_, read_eq hv hb hbuf'⟩, ?_⟩
  · rw [toSizeT_natCast hb64]
    have := hv.2.2.1
    omega
  · cases fate with
    | commit => exact ⟨_, write_commit_eq hv hb hbuf'⟩
    | abortAfter k => exact ⟨_, write_abort_eq hv hb hbuf' k⟩

theorem block_accesses_in_bounds_witness :
    pmemblk_map Base.empty 4 20 .commit =
      some ⟨0, new_pool 4 20, [Event.tx_begin none, Event.tx_end true]⟩ ∧
    toSizeT ((2 : Nat) : Int) *
      (⟨[0, 0, 0, 0, 1, 2, 3, 4, 0, 0, 0, 0, 0, 0], [0, 1, 2], 4, 3⟩ : Base).bsize < 2 ^ 64 ∧
    block_off ⟨[0, 0, 0, 0, 1, 2, 3, 4, 0, 0, 0, 0, 0, 0], [0, 1, 2], 4, 3⟩ ((2 : Nat) : Int) =
      2 * (⟨[0, 0, 0, 0, 1, 2, 3, 4, 0, 0, 0, 0, 0, 0], [0, 1, 2], 4, 3⟩ : Base).bsize ∧
    2 * (⟨[0, 0, 0, 0, 1, 2, 3, 4, 0, 0, 0, 0, 0, 0], [0, 1, 2], 4, 3⟩ : Base).bsize +
        (⟨[0, 0, 0, 0, 1, 2, 3, 4, 0, 0, 0, 0, 0, 0], [0, 1, 2], 4, 3⟩ : Base).bsize ≤
      (⟨[0, 0, 0, 0, 1, 2, 3, 4, 0, 0, 0, 0, 0, 0], [0, 1, 2], 4, 3⟩ : Base).data.length ∧
    flag_index ⟨[0, 0, 0, 0, 1, 2, 3, 4, 0, 0, 0, 0, 0, 0], [0, 1, 2], 4, 3⟩ ((2 : Nat) : Int) =
      some 2 ∧
    2 < (⟨[0, 0, 0, 0, 1, 2, 3, 4, 0, 0, 0, 0, 0, 0], [0, 1, 2], 4, 3⟩ : Base).flags.length ∧
    lock_index ((2 : Nat) : Int) = some (2 % 256) ∧ 2 % 256 < MAX_THREADS ∧
    (∃ r, pmemblk_read ⟨[0, 0, 0, 0, 1, 2, 3, 4, 0, 0, 0, 0, 0, 0], [0, 1, 2], 4, 3⟩
      [9, 9, 9, 9] ((2 : Nat) : Int) = some r) ∧
    (∃ r, pmemblk_write ⟨[0, 0, 0, 0, 1, 2, 3, 4, 0, 0, 0, 0, 0, 0], [0, 1, 2], 4, 3⟩
      [9, 9, 9, 9] ((2 : Nat) : Int) .commit = some r) :=
  block_accesses_in_bounds Base.empty 4 20 sample_ops
    ⟨[0, 0, 0, 0, 1, 2, 3, 4, 0, 0, 0, 0, 0, 0], [0, 1, 2], 4, 3⟩ 2 [9, 9, 9, 9] .commit
    (by decide) (by decide) (by decide) (by decide) (by decide) (by decide)

/-! ## Negative block numbers -/

theorem read_neg_eq {bp : Base} (hv : bp.Valid) (buf : List Nat) {blockno : Int}
    (hneg : blockno < 0) : pmemblk_read bp buf blockno = none := by
  have hg : ¬ blockno ≥ toLongLong bp.nblocks := by
    rw [toLongLong_of_lt (by have := hv.1; have := hv.2.2.2; omega)]
    omega
  have hfi : flag_index bp blockno = none := by
    have h1 : ¬ (0 ≤ blockno ∧ blockno < (bp.flags.length : Int)) := by omega
    simp only [flag_index, if_neg h1]
  unfold pmemblk_read
  rw [if_neg hg]
  cases lock_index blockno with
  | none => rfl
  | some l => simp only [hfi]

theorem commit_neg_eq {bp : Base} (hv : bp.Valid) (buf : List Nat) {blockno : Int}
    (hneg : blockno < 0) :
    pmemblk_write bp buf blockno .commit = none ∧
    pmemblk_set_zero bp blockno .commit = none ∧
    pmemblk_set_error bp blockno .commit = none := by
  refine ⟨?_, ?_, ?_⟩
  · cases h : pmemblk_write bp buf blockno .commit with
    | none => rfl
    | some r =>
      rcases write_cases hv h with h1 | ⟨_, b, hb, _⟩
      · exfalso
        have hg : ¬ blockno ≥ toLongLong bp.nblocks := by
          rw [toLongLong_of_lt (by have := hv.1; have := hv.2.2.2; omega)]
          omega
        unfold pmemblk_write at h
        rw [if_neg hg] at h
        unfold locked_tx at h
        cases hl : lock_index blockno with
        | none => rw [hl] at h; cases h
        | some l =>
          rw [hl] at h
          simp only [tx_run, write_body, runSteps_flag_neg hneg, Option.map_none'] at h
          cases h
      · omega
  · cases h : pmemblk_set_zero bp blockno .commit with
    | none => rfl
    | some r =>
      rcases set_zero_cases hv h with h1 | ⟨_, b, hb, _⟩
      · exfalso
        have hg : ¬ blockno ≥ toLongLong bp.nblocks := by
          rw [toLongLong_of_lt (by have := hv.1; have := hv.2.2.2; omega)]
          omega
        unfold pmemblk_set_zero at h
        rw [if_neg hg] at h
        unfold locked_tx at h
        cases hl : lock_index blockno with
        | none => rw [hl] at h; cases h
        | some l =>
          rw [hl] at h
          simp [tx_run, set_zero_body, runSteps, flag_add_range_neg hneg] at h
      · omega
  · cases h : pmemblk_set_error bp blockno .commit with
    | none => rfl
    | some r =>
      rcases set_error_cases hv h with h1 | ⟨_, b, hb, _⟩
      · exfalso
        have hg : ¬ blockno ≥ toLongLong bp.nblocks := by
          rw [toLongLong_of_lt (by have := hv.1; have := hv.2.2.2; omega)]
          omega
        unfold pmemblk_set_error at h
        rw [if_neg hg] at h
        unfold locked_tx at h
        cases hl : lock_index blockno with
        | none => rw [hl] at h; cases h
        | some l =>
          rw [hl] at h
          simp [tx_run, set_error_body, runSteps, flag_add_range_neg hneg] at h
      · omega

/-- C20. The code lets negative block numbers past its range check: on a pool with the
block layout, for every `blockno < 0` the only test, `blockno >= (long long)nblocks`,
is false, so none of the four calls returns the rejection `1`; `pmemblk_read` and the
committing `pmemblk_write`, `pmemblk_set_zero` and `pmemblk_set_error` go on to index
the lock table or the flags region out of bounds and have no defined result (`none`).
The command line reaches this: `strtoul` yields `18446744073709551615`, which the
`long long` parameter receives as `-1`. -/
theorem negative_blockno_passes_range_check (bp : Base) (buf : List Nat) (blockno : Int)
    (hv : bp.Valid) (hneg : blockno < 0) :
    ¬ (blockno ≥ toLongLong bp.nblocks) ∧
    pmemblk_read bp buf blockno = none ∧
    pmemblk_write bp buf blockno .commit = none ∧
    pmemblk_set_zero bp blockno .commit = none ∧
    pmemblk_set_error bp blockno .commit = none ∧
    toLongLong 18446744073709551615 = -1 := by
  have hg : ¬ blockno ≥ toLongLong bp.nblocks := by
    rw [toLongLong_of_lt (by have := hv.1; have := hv.2.2.2; omega)]
    omega
  obtain ⟨h1, h2, h3⟩ := commit_neg_eq hv buf hneg
  exact ⟨hg, read_neg_eq hv buf hneg, h1, h2, h3, by decide⟩

theorem negative_blockno_passes_range_check_witness :
    ¬ ((-1 : Int) ≥ toLongLong sample_pool.nblocks) ∧
    pmemblk_read sample_pool [9, 9, 9, 9] (-1) = none ∧
    pmemblk_write sample_pool [9, 9, 9, 9] (-1) .commit = none ∧
    pmemblk_set_zero sample_pool (-1) .commit = none ∧
    pmemblk_set_error sample_pool (-1) .commit = none ∧
    toLongLong 18446744073709551615 = -1 :=
  negative_blockno_passes_range_check sample_pool [9, 9, 9, 9] (-1) (by decide) (by decide)

/-! ## Sequences of calls and the descriptor -/

/-- C16. The code keeps the descriptor only for block numbers that are not negative. On
a pool with the block layout, every sequence of `pmemblk_read`, `pmemblk_write`,
`pmemblk_set_zero` and `pmemblk_set_error` calls whose block numbers are not negative
and whose buffers have room for a block runs to an end, and after every sequence that
runs, `bsize`, `nblocks` (the value `pmemblk_nblock` returns) and the lengths of the
data and flags regions are what they were before it, whatever the fates of the
transactions are.  But a `pmemblk_read`, or a committing `pmemblk_write`,
`pmemblk_set_zero` or `pmemblk_set_error`, with a negative block number gets past the
range check and indexes the lock table or the flags region out of bounds: the sequence
has no defined result (`none`), so nothing is kept. -/
theorem descriptor_kept_unless_negative (bp : Base) (ops rest : List Op) (buf : List Nat)
    (blockno : Int) (hv : bp.Valid) (hneg : blockno < 0) :
    (ops.all (Op.wellFormed bp.bsize) = true → ∃ bp', run_ops bp ops = some bp') ∧
    (∀ bp', run_ops bp ops = some bp' →
      bp'.bsize = bp.bsize ∧ pmemblk_nblock bp' = pmemblk_nblock bp ∧
      bp'.data.length = bp.data.length ∧ bp'.flags.length = bp.flags.length) ∧
    run_ops bp (Op.read buf blockno :: rest) = none ∧
    run_ops bp (Op.write buf blockno .commit :: rest) = none ∧
    run_ops bp (Op.set_zero blockno .commit :: rest) = none ∧
    run_ops bp (Op.set_error blockno .commit :: rest) = none := by
  obtain ⟨n1, n2, n3⟩ := commit_neg_eq hv buf hneg
  refine ⟨fun hw => run_ops_isSome hv hw, fun bp' h => ?_, ?_, ?_, ?_, ?_⟩
  · obtain ⟨_, h1, h2, h3, h4⟩ := run_ops_keeps_layout hv h
    exact ⟨h1, h2, h3, h4⟩
  · simp only [run_ops, Op.run, read_neg_eq hv buf hneg, Option.map_none', Option.none_bind]
  · simp only [run_ops, Op.run, n1, Option.map_none', Option.none_bind]
  · simp only [run_ops, Op.run, n2, Option.map_none', Option.none_bind]
  · simp only [run_ops, Op.run, n3, Option.map_none', Option.none_bind]

theorem descriptor_kept_unless_negative_witness :
    (sample_ops.all (Op.wellFormed sample_pool.bsize) = true →
      ∃ bp', run_ops sample_pool sample_ops = some bp') ∧
    (∀ bp', run_ops sample_pool sample_ops = some bp' →
      bp'.bsize = sample_pool.bsize ∧ pmemblk_nblock bp' = pmemblk_nblock sample_pool ∧
      bp'.data.length = sample_pool.data.length ∧
      bp'.flags.length = sample_pool.flags.length) ∧
    run_ops sample_pool (Op.read [9, 9, 9, 9] (-1) :: sample_ops) = none ∧
    run_ops sample_pool (Op.write [9, 9, 9, 9] (-1) .commit :: sample_ops) = none ∧
    run_ops sample_pool (Op.set_zero (-1) .commit :: sample_ops) = none ∧
    run_ops sample_pool (Op.set_error (-1) .commit :: sample_ops) = none :=
  descriptor_kept_unless_negative sample_pool sample_ops sample_ops [9, 9, 9, 9] (-1)
    (by decide) (by decide)

end ObjPmemblk
